import Mathlib

/-!
# Two-phase simplex solver: a shallow embedding

This file embeds the two-phase tableau simplex solver of the repository
(`saport/simplex/solver.py`) in Lean 4, over exact rational arithmetic.
The solver orchestration (`solve`, `_optimize`, `_presolve`, `_augment_model`,
`_add_slack_variables`, `_add_surplus_variables`, `_add_artificial_variables`,
`_basic_initial_tableau`, `_presolve_initial_tableau`,
`_artifical_variables_are_positive`, `_restore_initial_tableau`) is translated
from the source.  The collaborator classes (`Model`, `Expression`,
`Constraint`, `Objective`, `Tableau`, `Solution`) are not part of the
repository snapshot; they are modelled from the specification, as marked on
each such definition.
-/

attribute [local semireducible] Rat.add Rat.mul Rat.sub Rat.inv Rat.ofScientific

/-- Modelled from the spec: the fixed numeric tolerance used by the tableau
operations ("recommended ε ≈ 1e-9"), applied in optimality, unboundedness,
ratio-test eligibility and basic-column detection. -/
def eps : ℚ := 1 / 1000000000

/-- Modelled from the spec: a linear expression, as a dense coefficient list
(index `i` holds the coefficient of the variable with index `i`; absent
entries are implicitly `0`) plus a constant term. -/
structure Expression where
  coeffs : List ℚ
  const : ℚ
deriving DecidableEq, Repr

/-- Add `q` to position `v` of a coefficient list, padding with zeros. -/
def addAt : List ℚ → ℕ → ℚ → List ℚ
  | [], 0, q => [q]
  | [], n + 1, q => 0 :: addAt [] n q
  | x :: xs, 0, q => (x + q) :: xs
  | x :: xs, n + 1, q => x :: addAt xs n q

/-- Modelled from the spec: `expression + variable` / `expression - variable`
(adding a variable with coefficient `q` to an expression). -/
def addCoeff (e : Expression) (v : ℕ) (q : ℚ) : Expression :=
  { e with coeffs := addAt e.coeffs v q }

/-- Modelled from the spec: negation of a linear expression
(`-1 * expression`): every coefficient and the constant are negated. -/
def negExpr (e : Expression) : Expression :=
  ⟨e.coeffs.map (fun x => -x), -e.const⟩

/-- Modelled from the spec: `Expression.coefficients(model)` — the dense
coefficient vector ordered by the model's variable indices `0..n-1`. -/
def coefficients (e : Expression) (n : ℕ) : List ℚ :=
  (List.range n).map (fun i => e.coeffs.getD i 0)

/-- Modelled from the spec: the relational kind of a constraint. -/
inductive ConstraintType
  | LE | GE | EQ
deriving DecidableEq, Repr

/-- Modelled from the spec: a constraint — expression, relational kind,
scalar bound, and a stable index. -/
structure Constraint where
  expr : Expression
  type : ConstraintType
  bound : ℚ
  index : ℕ
deriving DecidableEq, Repr

/-- Modelled from the spec: the direction of an objective. -/
inductive ObjectiveType
  | MIN | MAX
deriving DecidableEq, Repr

/-- Modelled from the spec: an objective — expression plus direction. -/
structure Objective where
  expr : Expression
  type : ObjectiveType
deriving DecidableEq, Repr

/-- Modelled from the spec: a model — `varCount` variables with indices
`0..varCount-1`, an ordered list of constraints, and one objective. -/
structure Model where
  varCount : ℕ
  constraints : List Constraint
  objective : Objective
deriving DecidableEq, Repr

/-- Modelled from the spec: `Constraint.invert()` negates the expression and
the bound and swaps `≤` with `≥`. -/
def invertConstraint (c : Constraint) : Constraint :=
  { c with
    expr := negExpr c.expr
    bound := -c.bound
    type := match c.type with
      | .LE => .GE
      | .GE => .LE
      | .EQ => .EQ }

/-- Modelled from the spec: canonicalizing one constraint — the constant term
of the expression is moved to the bound, on the opposite side. -/
def simplifyConstraint (c : Constraint) : Constraint :=
  { c with
    expr := ⟨c.expr.coeffs, 0⟩
    bound := c.bound - c.expr.const }

/-- Modelled from the spec: `Model.simplify()` canonicalizes every
constraint. -/
def simplify (m : Model) : Model :=
  { m with constraints := m.constraints.map simplifyConstraint }

/-- Modelled from the spec: `Objective.invert()` negates the objective
expression and flips the direction. -/
def invertObjective (o : Objective) : Objective :=
  ⟨negExpr o.expr, match o.type with | .MIN => .MAX | .MAX => .MIN⟩

/-- `Solver._change_objective_to_max`: a minimization objective is inverted
(negated and treated as maximization). -/
def changeObjectiveToMax (m : Model) : Model :=
  if m.objective.type = ObjectiveType.MIN then
    { m with objective := invertObjective m.objective }
  else m

/-- `Solver._change_constraints_bounds_to_nonnegative`: every constraint with
a negative bound is inverted. -/
def changeConstraintsBoundsToNonnegative (m : Model) : Model :=
  { m with constraints :=
      m.constraints.map (fun c => if c.bound < 0 then invertConstraint c else c) }

/-- The constraint-rewriting pass of `Solver._add_slack_variables`: iterate
the constraints in order, and for every `≤` constraint create a fresh
variable (the next index `v`), add it to the expression with coefficient
`+1`, and turn the constraint into an equality.  Returns the rewritten
constraints, the slack map (slack variable index, constraint index), and the
final variable count. -/
def addSlacksAux : ℕ → List Constraint → List Constraint × List (ℕ × ℕ) × ℕ
  | v, [] => ([], [], v)
  | v, c :: cs =>
    if c.type = ConstraintType.LE then
      let r := addSlacksAux (v + 1) cs
      ({ c with expr := addCoeff c.expr v 1, type := .EQ } :: r.1, (v, c.index) :: r.2.1, r.2.2)
    else
      let r := addSlacksAux v cs
      (c :: r.1, r.2.1, r.2.2)

/-- `Solver._add_slack_variables`. -/
def addSlackVariables (m : Model) : Model × List (ℕ × ℕ) :=
  let r := addSlacksAux m.varCount m.constraints
  ({ m with constraints := r.1, varCount := r.2.2 }, r.2.1)

/-- The constraint-rewriting pass of `Solver._add_surplus_variables`: for
every `≥` constraint a fresh surplus variable is subtracted (coefficient
`-1`) and the constraint becomes an equality. -/
def addSurplusAux : ℕ → List Constraint → List Constraint × List (ℕ × ℕ) × ℕ
  | v, [] => ([], [], v)
  | v, c :: cs =>
    if c.type = ConstraintType.GE then
      let r := addSurplusAux (v + 1) cs
      ({ c with expr := addCoeff c.expr v (-1), type := .EQ } :: r.1, (v, c.index) :: r.2.1, r.2.2)
    else
      let r := addSurplusAux v cs
      (c :: r.1, r.2.1, r.2.2)

/-- `Solver._add_surplus_variables`. -/
def addSurplusVariables (m : Model) : Model × List (ℕ × ℕ) :=
  let r := addSurplusAux m.varCount m.constraints
  ({ m with constraints := r.1, varCount := r.2.2 }, r.2.1)

/-- The constraint-rewriting pass of `Solver._add_artificial_variables`: for
every constraint whose index is not among the slack-owning constraint
indices, a fresh artificial variable is added to the constraint's expression
with coefficient `+1` and to the objective's expression as well.  The
objective expression is threaded through in iteration order. -/
def addArtsAux (withSlack : List ℕ) :
    ℕ → List Constraint → Expression → List Constraint × List (ℕ × ℕ) × ℕ × Expression
  | v, [], obj => ([], [], v, obj)
  | v, c :: cs, obj =>
    if withSlack.contains c.index then
      let r := addArtsAux withSlack v cs obj
      (c :: r.1, r.2.1, r.2.2.1, r.2.2.2)
    else
      let r := addArtsAux withSlack (v + 1) cs (addCoeff obj v 1)
      ({ c with expr := addCoeff c.expr v 1 } :: r.1, (v, c.index) :: r.2.1, r.2.2.1, r.2.2.2)

/-- `Solver._add_artificial_variables`. -/
def addArtificialVariables (m : Model) (withSlack : List ℕ) : Model × List (ℕ × ℕ) :=
  let r := addArtsAux withSlack m.varCount m.constraints m.objective.expr
  ({ m with
      varCount := r.2.2.1
      constraints := r.1
      objective := { m.objective with expr := r.2.2.2 } },
   r.2.1)

/-- The first three steps of `Solver._augment_model`: `simplify()`, then
`_change_objective_to_max`, then `_change_constraints_bounds_to_nonnegative`. -/
def normalizeModel (m : Model) : Model :=
  changeConstraintsBoundsToNonnegative (changeObjectiveToMax (simplify m))

/-- `Solver._augment_model`: normalization followed by the slack and surplus
passes.  Returns the augmented model together with the slack and surplus
maps. -/
def augmentModel (m : Model) : Model × List (ℕ × ℕ) × List (ℕ × ℕ) :=
  let n := normalizeModel m
  let s := addSlackVariables n
  let u := addSurplusVariables s.1
  (u.1, s.2, u.2)

/-- The augmented model produced by `augmentModel`. -/
def augModel (m : Model) : Model := (augmentModel m).1

/-- The slack map produced by `augmentModel` (`self._slacks`). -/
def augSlacks (m : Model) : List (ℕ × ℕ) := (augmentModel m).2.1

/-- The surplus map produced by `augmentModel` (`self._surpluses`). -/
def augSurpluses (m : Model) : List (ℕ × ℕ) := (augmentModel m).2.2

/-- The constraint indices that own a slack variable (`with_slack` in
`_add_artificial_variables`). -/
def slackConstraintIdxs (m : Model) : List ℕ := (augSlacks m).map Prod.snd

/-- `Solver._create_presolve_model`: clone the augmented model and add the
artificial variables. -/
def createPresolveModel (m : Model) : Model × List (ℕ × ℕ) :=
  addArtificialVariables (augModel m) (slackConstraintIdxs m)

/-- The presolve model of `createPresolveModel`. -/
def presolveModel (m : Model) : Model := (createPresolveModel m).1

/-- The artificial map of `createPresolveModel` (`self._artificial`). -/
def presolveArts (m : Model) : List (ℕ × ℕ) := (createPresolveModel m).2

/-- Modelled from the spec: a tableau — a dense matrix, row 0 the objective
row, rows `1..m` the constraint rows, last column the right-hand side. -/
structure Tableau where
  table : List (List ℚ)
deriving DecidableEq, Repr

/-- `Solver._basic_initial_tableau`: objective row = coefficients of the
negated objective expression plus a `0` right-hand side; each constraint row
= its expression's coefficients plus its bound. -/
def basicInitialTableau (m : Model) : Tableau :=
  ⟨(coefficients (negExpr m.objective.expr) m.varCount ++ [0]) ::
    m.constraints.map (fun c => coefficients c.expr m.varCount ++ [c.bound])⟩

/-- Overwrite position `i` of a list (length preserving; out-of-range writes
are dropped). -/
def setAt : List ℚ → ℕ → ℚ → List ℚ
  | [], _, _ => []
  | _ :: xs, 0, q => q :: xs
  | x :: xs, n + 1, q => x :: setAt xs (n) q

/-- Entrywise subtraction of rows. -/
def rowSub (a b : List ℚ) : List ℚ := List.zipWith (fun x y => x - y) a b

/-- A row scaled by a rational. -/
def scaleRow (q : ℚ) (r : List ℚ) : List ℚ := r.map (fun x => q * x)

/-- The objective row (row 0) of a tableau. -/
def objRow (t : Tableau) : List ℚ := t.table.getD 0 []

/-- The constraint rows (rows `1..m`) of a tableau. -/
def bodyRows (t : Tableau) : List (List ℚ) := t.table.drop 1

/-- `Solver._presolve_initial_tableau`: start from the standard tableau, zero
the objective row, set a `1` in every artificial-variable column, then
subtract from the objective row the row of every constraint that received an
artificial variable. -/
def presolveInitialTableau (pm : Model) (arts : List (ℕ × ℕ)) : Tableau :=
  let t0 := basicInitialTableau pm
  let z : List ℚ := List.replicate (pm.varCount + 1) 0
  let r1 := arts.foldl (fun r p => setAt r p.1 1) z
  let r2 := arts.foldl (fun r p => rowSub r (t0.table.getD (p.2 + 1) [])) r1
  ⟨r2 :: t0.table.drop 1⟩

/-- Modelled from the spec: `Tableau.is_optimal()` — every objective-row
entry (excluding the right-hand side) is `≥ 0` within the tolerance. -/
def isOptimal (t : Tableau) : Bool :=
  (objRow t).dropLast.all (fun x => decide (-eps ≤ x))

/-- First index of the minimum of a list (accumulator form). -/
def idxOfMinAux : List ℚ → ℕ → ℚ → ℕ → ℕ
  | [], _, _, best => best
  | x :: xs, i, bv, best =>
    if x < bv then idxOfMinAux xs (i + 1) x i else idxOfMinAux xs (i + 1) bv best

/-- Modelled from the spec: `Tableau.choose_entering_variable()` — the column
with the most negative objective-row entry, ties broken by lowest index. -/
def chooseEnteringVariable (t : Tableau) : ℕ :=
  match (objRow t).dropLast with
  | [] => 0
  | x :: xs => idxOfMinAux xs 1 x 0

/-- Modelled from the spec: `Tableau.is_unbounded(column)` — every entry of
the column across the constraint rows is `≤ 0` within the tolerance. -/
def isUnbounded (t : Tableau) (c : ℕ) : Bool :=
  (bodyRows t).all (fun r => decide (r.getD c 0 ≤ eps))

/-- The right-hand side of a row (its last entry). -/
def rhsOf (r : List ℚ) : ℚ := r.getLast?.getD 0

/-- First minimum-ratio candidate (accumulator form over
`(row index, ratio)` pairs). -/
def minRatioAux : List (ℕ × ℚ) → ℕ → ℚ → ℕ
  | [], bi, _ => bi
  | (i, q) :: rest, bi, bq =>
    if q < bq then minRatioAux rest i q else minRatioAux rest bi bq

/-- Modelled from the spec: `Tableau.choose_leaving_variable(column)` — the
minimum-ratio test over the rows with an entry strictly positive (beyond the
tolerance) in the column; ties broken by lowest row index.  Returns the row
index in the full table (constraint row `i` is table row `i+1`). -/
def chooseLeavingVariable (t : Tableau) (c : ℕ) : ℕ :=
  let cands := (bodyRows t).enum.filterMap (fun p =>
    let a := p.2.getD c 0
    if eps < a then some (p.1 + 1, rhsOf p.2 / a) else none)
  match cands with
  | [] => 0
  | (i, q) :: rest => minRatioAux rest i q

/-- Modelled from the spec: `Tableau.pivot(row, column)` — divide the pivot
row by the pivot entry and subtract the appropriate multiple of it from
every other row, including row 0. -/
def pivot (t : Tableau) (r c : ℕ) : Tableau :=
  let prowOld := t.table.getD r []
  let a := prowOld.getD c 0
  let prow := prowOld.map (fun x => x / a)
  ⟨t.table.enum.map (fun p =>
    if p.1 = r then prow else rowSub p.2 (scaleRow (p.2.getD c 0) prow))⟩

/-- `Solver._optimize`, with explicit fuel (the Python loop may fail to
terminate on degenerate cycling inputs; `none` means the fuel ran out).
`some (false, t)` is the unbounded halt, `some (true, t)` the optimal
halt. -/
def optimize : ℕ → Tableau → Option (Bool × Tableau)
  | 0, _ => none
  | fuel + 1, t =>
    if isOptimal t then some (true, t)
    else
      let c := chooseEnteringVariable t
      if isUnbounded t c then some (false, t)
      else optimize fuel (pivot t (chooseLeavingVariable t c) c)

/-- `x` is zero within the tolerance. -/
def nearZero (x : ℚ) : Bool := decide (|x| ≤ eps)

/-- `x` is one within the tolerance. -/
def nearOne (x : ℚ) : Bool := decide (|x - 1| ≤ eps)

/-- Modelled from the spec: the row (among the constraint rows) holding the
single `1` of column `j`, when column `j` is a basic unit column — within
the tolerance, the objective-row entry and all other constraint-row entries
are `0` and exactly one constraint-row entry is `1`. -/
def basicRowOf (t : Tableau) (j : ℕ) : Option ℕ :=
  if nearZero ((objRow t).getD j 0) then
    match (bodyRows t).enum.filter (fun p => !nearZero (p.2.getD j 0)) with
    | [p] => if nearOne (p.2.getD j 0) then some p.1 else none
    | _ => none
  else none

/-- Modelled from the spec: `Tableau.extract_assignment()` — each column's
value is the right-hand side of its basic row when the column is a basic
unit column, else `0`. -/
def extractAssignment (t : Tableau) : List ℚ :=
  (List.range ((objRow t).length - 1)).map (fun j =>
    match basicRowOf t j with
    | some i => rhsOf ((bodyRows t).getD i [])
    | none => 0)

/-- `Solver._artifical_variables_are_positive`: some artificial variable's
value in the extracted assignment is strictly positive (the source compares
with `0`, not with the tolerance). -/
def artificialVariablesArePositive (t : Tableau) (arts : List (ℕ × ℕ)) : Bool :=
  let a := extractAssignment t
  arts.any (fun p => decide (0 < a.getD p.1 0))

/-- Delete the listed positions from a row (`np.delete`), tracking the
current position in the accumulator. -/
def deleteColsAux (cols : List ℕ) : ℕ → List ℚ → List ℚ
  | _, [] => []
  | i, x :: xs =>
    if cols.contains i then deleteColsAux cols (i + 1) xs
    else x :: deleteColsAux cols (i + 1) xs

/-- Delete the listed column positions from a row. -/
def deleteCols (cols : List ℕ) (r : List ℚ) : List ℚ := deleteColsAux cols 0 r

/-- Maximum entry of a column (`np.amax`; `0` for an empty column). -/
def colMax : List ℚ → ℚ
  | [] => 0
  | x :: xs => xs.foldl max x

/-- Minimum entry of a column (`np.amin`; `0` for an empty column). -/
def colMin : List ℚ → ℚ
  | [] => 0
  | x :: xs => xs.foldl min x

/-- First index of the maximum of a list (accumulator form). -/
def argMaxAux : List ℚ → ℕ → ℚ → ℕ → ℕ
  | [], _, _, best => best
  | x :: xs, i, bv, best =>
    if bv < x then argMaxAux xs (i + 1) x i else argMaxAux xs (i + 1) bv best

/-- First index of the maximum of a column (`np.argmax`). -/
def argMax : List ℚ → ℕ
  | [] => 0
  | x :: xs => argMaxAux xs 1 x 0

/-- Column `j` of a list of rows. -/
def columnAt (rows : List (List ℚ)) (j : ℕ) : List ℚ :=
  rows.map (fun r => r.getD j 0)

/-- One step of the elimination loop of `Solver._restore_initial_tableau`:
if the constraint-row entries of column `i` have maximum exactly `1` and
minimum exactly `0`, subtract from the objective row its entry at `i` times
the constraint row holding the first maximal entry of the column. -/
def restoreElimStep (body : List (List ℚ)) (r0 : List ℚ) (i : ℕ) : List ℚ :=
  let col := columnAt body i
  if colMax col = 1 ∧ colMin col = 0 then
    rowSub r0 (scaleRow (r0.getD i 0) (body.getD (argMax col) []))
  else r0

/-- `Solver._restore_initial_tableau`: delete the artificial-variable columns
from every row, overwrite the objective row with the negated coefficients of
the (augmented) model's objective, then run the elimination loop over every
column position (the right-hand-side column included, as in the source). -/
def restoreInitialTableau (t : Tableau) (m : Model) (artCols : List ℕ) : Tableau :=
  let body := (t.table.drop 1).map (deleteCols artCols)
  let r0 := coefficients (negExpr m.objective.expr) m.varCount ++ [0]
  ⟨(List.range (m.varCount + 1)).foldl (restoreElimStep body) r0 :: body⟩

/-- `Solver._presolve`: build the presolve model and its initial tableau, run
the optimize loop (its boolean result is discarded, as in the source), then
either report failure when some artificial variable is positive, or restore
the Phase-II tableau. -/
def presolve (fuel : ℕ) (nm : Model) (withSlack : List ℕ) : Option (Tableau × Bool) :=
  let r := addArtificialVariables nm withSlack
  let t := presolveInitialTableau r.1 r.2
  match optimize fuel t with
  | none => none
  | some (_, tf) =>
    if artificialVariablesArePositive tf r.2 then some (tf, false)
    else some (restoreInitialTableau tf nm (r.2.map Prod.fst), true)

/-- Modelled from the spec: the status carried by a solution. -/
inductive SolutionStatus
  | optimal | infeasible | unbounded
deriving DecidableEq, Repr

/-- Modelled from the spec: a solution — status, raw assignment indexed like
the augmented model, the caller's model, and the initial/final tableaux kept
for diagnostics. -/
structure Solution where
  status : SolutionStatus
  rawAssignment : List ℚ
  model : Model
  initialTableau : Tableau
  finalTableau : Tableau
deriving DecidableEq, Repr

/-- Modelled from the spec: `Solution.infeasible(model, initial, final)`. -/
def Solution.infeasible (m : Model) (ti tf : Tableau) : Solution :=
  ⟨.infeasible, [], m, ti, tf⟩

/-- Modelled from the spec: `Solution.unbounded(model, initial, final)`. -/
def Solution.unbounded (m : Model) (ti tf : Tableau) : Solution :=
  ⟨.unbounded, [], m, ti, tf⟩

/-- Modelled from the spec: `Solution.with_assignment(model, assignment,
initial, final)` — an optimal solution. -/
def Solution.withAssignment (m : Model) (a : List ℚ) (ti tf : Tableau) : Solution :=
  ⟨.optimal, a, m, ti, tf⟩

/-- The tail of `Solver.solve` shared by both branches: remember the initial
tableau, run the optimize loop, and report unbounded or optimal. -/
def solveAfterPresolve (fuel : ℕ) (m : Model) (t : Tableau) : Option Solution :=
  match optimize fuel t with
  | none => none
  | some (false, tf) => some (Solution.unbounded m t tf)
  | some (true, tf) => some (Solution.withAssignment m (extractAssignment tf) t tf)

/-- `Solver.solve`: augment the model; when fewer slacks than constraints
were added, run the presolve (reporting infeasibility with the Phase-I final
tableau in both slots, as in the source); otherwise start from the slack-only
tableau; then optimize. -/
def solve (fuel : ℕ) (m : Model) : Option Solution :=
  let nm := augModel m
  if (augSlacks m).length < nm.constraints.length then
    match presolve fuel nm (slackConstraintIdxs m) with
    | none => none
    | some (tf, false) => some (Solution.infeasible m tf tf)
    | some (t2, true) => solveAfterPresolve fuel m t2
  else
    solveAfterPresolve fuel m (basicInitialTableau nm)

/-- Modelled from the spec: `Solution.assignment(model)` — the raw assignment
projected onto the caller's original variables, by index. -/
def Solution.assignment (s : Solution) : List ℚ :=
  (List.range s.model.varCount).map (fun i => s.rawAssignment.getD i 0)

/-- Modelled from the spec: `Solution.objective_value` — the original model's
objective expression evaluated at the projected assignment. -/
def Solution.objectiveValue (s : Solution) : ℚ :=
  ((coefficients s.model.objective.expr s.model.varCount).zip s.assignment).foldl
    (fun acc p => acc + p.1 * p.2) 0 + s.model.objective.expr.const

/-- The status of an optional solution. -/
def statusOf (o : Option Solution) : Option SolutionStatus := o.map (fun s => s.status)

/-- The projected assignment of an optional solution. -/
def assignmentOf (o : Option Solution) : Option (List ℚ) := o.map (fun s => s.assignment)

/-- The objective value of an optional solution. -/
def objectiveValueOf (o : Option Solution) : Option ℚ := o.map (fun s => s.objectiveValue)

/-- Well-formedness of a model as built through the construction API:
constraint indices are the positions `0..k-1`, and every expression mentions
only variables below `varCount`. -/
def wfModel (m : Model) : Bool :=
  m.constraints.enum.all (fun p =>
    decide (p.2.index = p.1) && decide (p.2.expr.coeffs.length ≤ m.varCount)) &&
  decide (m.objective.expr.coeffs.length ≤ m.varCount)

/-! ## Concrete models -/

/-- The model of `example_04_solvable_artificial_vars.py`: maximize
`2*x1 + x2` subject to `x1 + 2*x2 ≤ 20` and `x1 + x2 = 10`. -/
def model04 : Model :=
  ⟨2, [⟨⟨[1, 2], 0⟩, .LE, 20, 0⟩, ⟨⟨[1, 1], 0⟩, .EQ, 10, 1⟩], ⟨⟨[2, 1], 0⟩, .MAX⟩⟩

/-- The model of `example_05_infeasible.py`: maximize `5*x1 + 8*x2` subject
to `x1 - 3*x2 + x3 ≥ 10` and `x1 + 2*x2 - x3 ≤ -10` (an unbounded model). -/
def model05 : Model :=
  ⟨3, [⟨⟨[1, -3, 1], 0⟩, .GE, 10, 0⟩, ⟨⟨[1, 2, -1], 0⟩, .LE, -10, 1⟩], ⟨⟨[5, 8, 0], 0⟩, .MAX⟩⟩

/-- A model whose only constraint is `x1 ≤ -5`: all constraints are `≤`, yet
the negative bound is inverted into `-x1 ≥ 5`, so no slack is added. -/
def mNeg : Model := ⟨1, [⟨⟨[1], 0⟩, .LE, -5, 0⟩], ⟨⟨[1], 0⟩, .MAX⟩⟩

/-- A model whose only constraint is `x1 ≥ 5`: the constraint receives a
surplus (auxiliary) variable, and still receives an artificial variable. -/
def mGE : Model := ⟨1, [⟨⟨[1], 0⟩, .GE, 5, 0⟩], ⟨⟨[1], 0⟩, .MAX⟩⟩

/-- A model whose only constraint is `x1 = 5`, maximizing `x1`:
a single-constraint model exercising the Phase-II restoration. -/
def mEq1 : Model := ⟨1, [⟨⟨[1], 0⟩, .EQ, 5, 0⟩], ⟨⟨[1], 0⟩, .MAX⟩⟩

/-- An infeasible model with a tiny gap: `x1 ≤ 0` and `x1 ≥ 1e-10`.  Phase I
ends with the artificial variable at value `1e-10`, strictly positive but
below the tolerance `eps = 1e-9`. -/
def mTiny : Model :=
  ⟨1, [⟨⟨[1], 0⟩, .LE, 0, 0⟩, ⟨⟨[1], 0⟩, .GE, 1/10000000000, 1⟩], ⟨⟨[1], 0⟩, .MAX⟩⟩

/-- A model whose constraint coefficients equal the tolerance:
`1e-9 * x1 = 5` twice.  In Phase I the entering column's constraint entries
are all `≤ eps`, so the optimize loop halts with the unbounded signal. -/
def mTol : Model :=
  ⟨1, [⟨⟨[1/1000000000], 0⟩, .EQ, 5, 0⟩, ⟨⟨[1/1000000000], 0⟩, .EQ, 5, 1⟩], ⟨⟨[1], 0⟩, .MAX⟩⟩

/-- An infeasible model requiring a Phase-I pivot: `x1 ≤ 4` and `x1 ≥ 10`. -/
def mInfeasEx : Model :=
  ⟨1, [⟨⟨[1], 0⟩, .LE, 4, 0⟩, ⟨⟨[1], 0⟩, .GE, 10, 1⟩], ⟨⟨[1], 0⟩, .MAX⟩⟩

/-- A degenerate model: `x1 ≤ 0` and `x1 = 0`.  Phase I halts with the
artificial variable still basic at value exactly `0`. -/
def mDegen : Model :=
  ⟨1, [⟨⟨[1], 0⟩, .LE, 0, 0⟩, ⟨⟨[1], 0⟩, .EQ, 0, 1⟩], ⟨⟨[1], 0⟩, .MAX⟩⟩

/-! ## C1 -/

/-- C1: for the concrete model maximizing `2*x1 + x2` subject to
`x1 + 2*x2 ≤ 20` and `x1 + x2 = 10`, `solve` returns a Solution with status
optimal whose assignment for the original variables is `[10, 0]` and whose
objective value is `20`. -/
theorem claim1_example04_optimal :
    statusOf (solve 30 model04) = some SolutionStatus.optimal ∧
    assignmentOf (solve 30 model04) = some [10, 0] ∧
    objectiveValueOf (solve 30 model04) = some 20 := by
  refine ⟨?_, ?_, ?_⟩ <;> decide

/-! ## C2 -/

/-- Slack pass: the rewritten constraint list has the same length. -/
theorem addSlacksAux_fst_length (v : ℕ) (cs : List Constraint) :
    (addSlacksAux v cs).1.length = cs.length := by
  induction cs generalizing v with
  | nil => simp [addSlacksAux]
  | cons c cs ih =>
    by_cases h : c.type = ConstraintType.LE <;> simp [addSlacksAux, h, ih]

/-- Surplus pass: the rewritten constraint list has the same length. -/
theorem addSurplusAux_fst_length (v : ℕ) (cs : List Constraint) :
    (addSurplusAux v cs).1.length = cs.length := by
  induction cs generalizing v with
  | nil => simp [addSurplusAux]
  | cons c cs ih =>
    by_cases h : c.type = ConstraintType.GE <;> simp [addSurplusAux, h, ih]

/-- Slack pass: one slack per `≤` constraint. -/
theorem addSlacksAux_slacks_length (v : ℕ) (cs : List Constraint) :
    (addSlacksAux v cs).2.1.length
      = cs.countP (fun c => decide (c.type = ConstraintType.LE)) := by
  induction cs generalizing v with
  | nil => simp [addSlacksAux]
  | cons c cs ih =>
    by_cases h : c.type = ConstraintType.LE <;>
      simp [addSlacksAux, h, ih, List.countP_cons]

/-- A count of satisfying elements is below the length exactly when some
element fails the predicate. -/
theorem countP_lt_length_iff {α : Type} (p : α → Bool) (l : List α) :
    l.countP p < l.length ↔ ∃ a ∈ l, ¬ p a = true := by
  constructor
  · intro h
    by_contra hc
    push_neg at hc
    rw [List.countP_eq_length.mpr hc] at h
    exact lt_irrefl _ h
  · rintro ⟨a, ha, hpa⟩
    rcases Nat.lt_or_ge (l.countP p) l.length with h | h
    · exact h
    · exact absurd (List.countP_eq_length.mp
        (Nat.le_antisymm (List.countP_le_length p) h) a ha) hpa

/-- The augmentation does not change the number of constraints. -/
theorem augModel_constraints_length (m : Model) :
    (augModel m).constraints.length = (normalizeModel m).constraints.length := by
  simp [augModel, augmentModel, addSurplusVariables, addSlackVariables,
        addSurplusAux_fst_length, addSlacksAux_fst_length]

/-- The number of slacks equals the number of `≤` constraints of the
normalized model. -/
theorem augSlacks_length (m : Model) :
    (augSlacks m).length
      = (normalizeModel m).constraints.countP (fun c => decide (c.type = ConstraintType.LE)) := by
  simp [augSlacks, augmentModel, addSlackVariables, addSlacksAux_slacks_length]

/-- C2, counterexample: for the model whose only constraint is `x1 ≤ -5`,
every constraint of the simplified model is `≤` (no `=` or `≥` is present),
yet `solve`'s branch condition (fewer slacks than constraints) holds and the
presolve is performed — the bound inversion turned the constraint into `≥`
before slacks were added.  This refutes the claim that the presolve runs if
and only if the simplified model contains an `=` or `≥` constraint. -/
theorem claim2_counterexample :
    ¬ (((augSlacks mNeg).length < (augModel mNeg).constraints.length) ↔
        ∃ c ∈ (simplify mNeg).constraints,
          c.type = ConstraintType.EQ ∨ c.type = ConstraintType.GE) := by
  decide

/-- C2 amended: `solve` performs the presolve (Phase I) step if and only if
the simplified **and sign-normalized** model (negative bounds inverted)
contains at least one `=` or `≥` constraint; a model all of whose
constraints are `≤` after bound normalization takes the slack-only path.
(The code decides this by comparing the number of slack variables added
against the number of constraints.) -/
theorem claim2_amended (m : Model) :
    ((augSlacks m).length < (augModel m).constraints.length) ↔
      ∃ c ∈ (normalizeModel m).constraints,
        c.type = ConstraintType.EQ ∨ c.type = ConstraintType.GE := by
  rw [augSlacks_length, augModel_constraints_length, countP_lt_length_iff]
  constructor
  · rintro ⟨c, hc, hp⟩
    exact ⟨c, hc, by cases h : c.type <;> simp_all⟩
  · rintro ⟨c, hc, hp⟩
    exact ⟨c, hc, by cases h : c.type <;> simp_all⟩

/-! ## C3 -/

/-- What the slack pass does to one constraint, relative to the slack map `S`
and the first fresh index `v`. -/
def slackRel (S : List (ℕ × ℕ)) (v : ℕ) (c c' : Constraint) : Prop :=
  (c.type = ConstraintType.LE ∧ ∃ w, v ≤ w ∧ (w, c.index) ∈ S ∧
     c' = { c with expr := addCoeff c.expr w 1, type := ConstraintType.EQ }) ∨
  (c.type ≠ ConstraintType.LE ∧ c' = c)

/-- What the surplus pass does to one constraint, relative to the surplus map
`S` and the first fresh index `v`. -/
def surplusRel (S : List (ℕ × ℕ)) (v : ℕ) (c c' : Constraint) : Prop :=
  (c.type = ConstraintType.GE ∧ ∃ w, v ≤ w ∧ (w, c.index) ∈ S ∧
     c' = { c with expr := addCoeff c.expr w (-1), type := ConstraintType.EQ }) ∨
  (c.type ≠ ConstraintType.GE ∧ c' = c)

/-- The slack pass realizes `slackRel` constraint by constraint. -/
theorem addSlacksAux_spec (v : ℕ) (cs : List Constraint) :
    List.Forall₂ (slackRel (addSlacksAux v cs).2.1 v) cs (addSlacksAux v cs).1 := by
  induction cs generalizing v with
  | nil => simp [addSlacksAux]
  | cons c cs ih =>
    by_cases h : c.type = ConstraintType.LE
    · simp only [addSlacksAux, h, if_pos]
      refine List.Forall₂.cons (Or.inl ⟨h, v, le_refl v, List.mem_cons_self _ _, rfl⟩) ?_
      refine (ih (v + 1)).imp (fun a b hab => ?_)
      rcases hab with ⟨ha, w, hw, hmem, hb⟩ | ⟨ha, hb⟩
      · exact Or.inl ⟨ha, w, le_trans (Nat.le_succ v) hw, List.mem_cons_of_mem _ hmem, hb⟩
      · exact Or.inr ⟨ha, hb⟩
    · simp only [addSlacksAux, h, if_neg, if_false]
      exact List.Forall₂.cons (Or.inr ⟨h, rfl⟩) (ih v)

/-- The surplus pass realizes `surplusRel` constraint by constraint. -/
theorem addSurplusAux_spec (v : ℕ) (cs : List Constraint) :
    List.Forall₂ (surplusRel (addSurplusAux v cs).2.1 v) cs (addSurplusAux v cs).1 := by
  induction cs generalizing v with
  | nil => simp [addSurplusAux]
  | cons c cs ih =>
    by_cases h : c.type = ConstraintType.GE
    · simp only [addSurplusAux, h, if_pos]
      refine List.Forall₂.cons (Or.inl ⟨h, v, le_refl v, List.mem_cons_self _ _, rfl⟩) ?_
      refine (ih (v + 1)).imp (fun a b hab => ?_)
      rcases hab with ⟨ha, w, hw, hmem, hb⟩ | ⟨ha, hb⟩
      · exact Or.inl ⟨ha, w, le_trans (Nat.le_succ v) hw, List.mem_cons_of_mem _ hmem, hb⟩
      · exact Or.inr ⟨ha, hb⟩
    · simp only [addSurplusAux, h, if_neg, if_false]
      exact List.Forall₂.cons (Or.inr ⟨h, rfl⟩) (ih v)

/-- Composing two elementwise relations along the middle list. -/
theorem forall₂_comp {α β γ : Type} {R : α → β → Prop} {S : β → γ → Prop}
    {l₁ : List α} {l₂ : List β} {l₃ : List γ}
    (h₁ : List.Forall₂ R l₁ l₂) (h₂ : List.Forall₂ S l₂ l₃) :
    List.Forall₂ (fun a c => ∃ b, R a b ∧ S b c) l₁ l₃ := by
  induction h₁ generalizing l₃ with
  | nil => cases h₂; exact .nil
  | cons hab _ ih =>
    cases h₂ with
    | cons hbc h₂tail => exact .cons ⟨_, hab, hbc⟩ (ih h₂tail)

/-- The slack pass only increases the variable counter. -/
theorem addSlacksAux_le_varCount (v : ℕ) (cs : List Constraint) :
    v ≤ (addSlacksAux v cs).2.2 := by
  induction cs generalizing v with
  | nil => simp [addSlacksAux]
  | cons c cs ih =>
    by_cases h : c.type = ConstraintType.LE
    · simp only [addSlacksAux, h, if_pos]
      exact le_trans (Nat.le_succ v) (ih (v + 1))
    · simp only [addSlacksAux, h, if_neg, if_false]
      exact ih v

/-- Bound nonnegativity survives the slack pass. -/
theorem addSlacksAux_bounds (v : ℕ) (cs : List Constraint)
    (h : ∀ c ∈ cs, 0 ≤ c.bound) : ∀ c' ∈ (addSlacksAux v cs).1, 0 ≤ c'.bound := by
  induction cs generalizing v with
  | nil => simp [addSlacksAux]
  | cons c cs ih =>
    by_cases hc : c.type = ConstraintType.LE <;>
      [simp only [addSlacksAux, hc, if_pos]; simp only [addSlacksAux, hc, if_neg, if_false]] <;>
      intro c' hc' <;> rcases List.mem_cons.mp hc' with h1 | h1
    · exact h1 ▸ h c (List.mem_cons_self _ _)
    · exact ih (v + 1) (fun a ha => h a (List.mem_cons_of_mem _ ha)) c' h1
    · exact h1 ▸ h c (List.mem_cons_self _ _)
    · exact ih v (fun a ha => h a (List.mem_cons_of_mem _ ha)) c' h1

/-- Bound nonnegativity survives the surplus pass. -/
theorem addSurplusAux_bounds (v : ℕ) (cs : List Constraint)
    (h : ∀ c ∈ cs, 0 ≤ c.bound) : ∀ c' ∈ (addSurplusAux v cs).1, 0 ≤ c'.bound := by
  induction cs generalizing v with
  | nil => simp [addSurplusAux]
  | cons c cs ih =>
    by_cases hc : c.type = ConstraintType.GE <;>
      [simp only [addSurplusAux, hc, if_pos]; simp only [addSurplusAux, hc, if_neg, if_false]] <;>
      intro c' hc' <;> rcases List.mem_cons.mp hc' with h1 | h1
    · exact h1 ▸ h c (List.mem_cons_self _ _)
    · exact ih (v + 1) (fun a ha => h a (List.mem_cons_of_mem _ ha)) c' h1
    · exact h1 ▸ h c (List.mem_cons_self _ _)
    · exact ih v (fun a ha => h a (List.mem_cons_of_mem _ ha)) c' h1

/-- After bound normalization every bound is nonnegative. -/
theorem normalize_bounds_nonneg (m : Model) :
    ∀ c ∈ (normalizeModel m).constraints, 0 ≤ c.bound := by
  intro c hc
  simp only [normalizeModel, changeConstraintsBoundsToNonnegative, List.mem_map] at hc
  obtain ⟨a, _, ha⟩ := hc
  by_cases hb : a.bound < 0
  · simp only [hb, if_pos] at ha
    subst ha
    simp only [invertConstraint]
    linarith
  · simp only [hb, if_neg, if_false] at ha
    subst ha
    exact le_of_not_lt hb

/-- The augmentation keeps the (normalized) objective. -/
theorem augModel_objective (m : Model) :
    (augModel m).objective = (normalizeModel m).objective := by
  simp [augModel, augmentModel, addSurplusVariables, addSlackVariables]

/-- The normalized objective: inverted when it was a minimization. -/
theorem normalizeModel_objective (m : Model) :
    (normalizeModel m).objective =
      (if (simplify m).objective.type = ObjectiveType.MIN
       then invertObjective (simplify m).objective
       else (simplify m).objective) := by
  by_cases h : (simplify m).objective.type = ObjectiveType.MIN <;>
    simp [normalizeModel, changeConstraintsBoundsToNonnegative, changeObjectiveToMax, h]

/-- The augmented constraint list, unfolded to the two passes. -/
theorem augModel_constraints (m : Model) :
    (augModel m).constraints =
      (addSurplusAux (addSlacksAux (normalizeModel m).varCount (normalizeModel m).constraints).2.2
        (addSlacksAux (normalizeModel m).varCount (normalizeModel m).constraints).1).1 := by
  simp [augModel, augmentModel, addSlackVariables, addSurplusVariables]

/-- The slack map, unfolded to the slack pass. -/
theorem augSlacks_eq (m : Model) :
    augSlacks m
      = (addSlacksAux (normalizeModel m).varCount (normalizeModel m).constraints).2.1 := by
  simp [augSlacks, augmentModel, addSlackVariables]

/-- The surplus map, unfolded to the two passes. -/
theorem augSurpluses_eq (m : Model) :
    augSurpluses m =
      (addSurplusAux (addSlacksAux (normalizeModel m).varCount (normalizeModel m).constraints).2.2
        (addSlacksAux (normalizeModel m).varCount (normalizeModel m).constraints).1).2.1 := by
  simp [augSurpluses, augmentModel, addSlackVariables, addSurplusVariables]

/-- What `_augment_model` does to one constraint of the normalized model:
a `≤` constraint receives a fresh slack variable with coefficient `+1` and
becomes an equality, a `≥` constraint receives a fresh surplus variable with
coefficient `-1` and becomes an equality, and an `=` constraint is kept. -/
def augRel (m : Model) (c c' : Constraint) : Prop :=
  (c.type = ConstraintType.LE →
    ∃ w, (normalizeModel m).varCount ≤ w ∧ (w, c.index) ∈ augSlacks m ∧
      c' = { c with expr := addCoeff c.expr w 1, type := ConstraintType.EQ }) ∧
  (c.type = ConstraintType.GE →
    ∃ w, (normalizeModel m).varCount ≤ w ∧ (w, c.index) ∈ augSurpluses m ∧
      c' = { c with expr := addCoeff c.expr w (-1), type := ConstraintType.EQ }) ∧
  (c.type = ConstraintType.EQ → c' = c)

/-- C3: `_augment_model` produces a model whose objective is a maximization
(the expression negated exactly when the original was a minimization), whose
bounds are all nonnegative after the inversion of negative-bound
constraints, and whose constraints arise elementwise from the normalized
model's by the slack/surplus discipline of `augRel` — every constraint that
is `≤` after normalization received a fresh slack variable with coefficient
`+1` and became an equality, every `≥` one a fresh surplus variable with
coefficient `-1`, and equalities were kept unchanged. -/
theorem claim3_augment (m : Model) :
    (augModel m).objective.type = ObjectiveType.MAX ∧
    (augModel m).objective.expr =
      (if (simplify m).objective.type = ObjectiveType.MIN
       then negExpr (simplify m).objective.expr
       else (simplify m).objective.expr) ∧
    (∀ c ∈ (augModel m).constraints, 0 ≤ c.bound) ∧
    List.Forall₂ (augRel m) (normalizeModel m).constraints (augModel m).constraints := by
  have hobj := augModel_objective m
  have hnobj := normalizeModel_objective m
  refine ⟨?_, ?_, ?_, ?_⟩
  · rw [hobj, hnobj]
    by_cases h : (simplify m).objective.type = ObjectiveType.MIN
    · simp only [h, if_pos, invertObjective]
    · cases htype : (simplify m).objective.type
      · exact absurd htype h
      · simp [htype]
  · rw [hobj, hnobj]
    by_cases h : (simplify m).objective.type = ObjectiveType.MIN <;>
      simp [h, invertObjective]
  · rw [augModel_constraints]
    exact addSurplusAux_bounds _ _
      (addSlacksAux_bounds _ _ (normalize_bounds_nonneg m))
  · have h1 := addSlacksAux_spec (normalizeModel m).varCount (normalizeModel m).constraints
    have h2 := addSurplusAux_spec
      (addSlacksAux (normalizeModel m).varCount (normalizeModel m).constraints).2.2
      (addSlacksAux (normalizeModel m).varCount (normalizeModel m).constraints).1
    rw [augModel_constraints]
    refine (forall₂_comp h1 h2).imp (fun a c hac => ?_)
    obtain ⟨b, hab, hbc⟩ := hac
    have hv := addSlacksAux_le_varCount (normalizeModel m).varCount (normalizeModel m).constraints
    refine ⟨?_, ?_, ?_⟩
    · intro hLE
      rcases hab with ⟨_, w, hw, hmem, hb⟩ | ⟨ha, _⟩
      · rcases hbc with ⟨hbty, _⟩ | ⟨_, hcb⟩
        · rw [hb] at hbty; exact absurd hbty (by simp)
        · exact ⟨w, hw, by rw [augSlacks_eq]; exact hmem, by rw [← hb, hcb]⟩
      · exact absurd hLE ha
    · intro hGE
      rcases hab with ⟨ha, _⟩ | ⟨_, hb⟩
      · rw [hGE] at ha; exact absurd ha (by simp)
      · rcases hbc with ⟨_, w, hw, hmem, hc⟩ | ⟨hbty, _⟩
        · subst hb
          exact ⟨w, le_trans hv hw, by rw [augSurpluses_eq]; exact hmem, hc⟩
        · subst hb; exact absurd hGE hbty
    · intro hEQ
      rcases hab with ⟨ha, _⟩ | ⟨_, hb⟩
      · rw [hEQ] at ha; exact absurd ha (by simp)
      · subst hb
        rcases hbc with ⟨ha, _⟩ | ⟨_, hc⟩
        · rw [hEQ] at ha; exact absurd ha (by simp)
        · exact hc

/-! ## C4 -/

/-- What the artificial pass does to one constraint, relative to the
artificial map `S`, the slack-owning indices `withSlack`, and the first
fresh index `v`. -/
def artsRel (S : List (ℕ × ℕ)) (withSlack : List ℕ) (v : ℕ) (c c' : Constraint) : Prop :=
  (¬ withSlack.contains c.index = true ∧ ∃ w, v ≤ w ∧ (w, c.index) ∈ S ∧
     c' = { c with expr := addCoeff c.expr w 1 }) ∨
  (withSlack.contains c.index = true ∧ c' = c)

/-- The artificial pass realizes `artsRel` constraint by constraint. -/
theorem addArtsAux_spec (withSlack : List ℕ) (v : ℕ) (cs : List Constraint) (obj : Expression) :
    List.Forall₂ (artsRel (addArtsAux withSlack v cs obj).2.1 withSlack v)
      cs (addArtsAux withSlack v cs obj).1 := by
  induction cs generalizing v obj with
  | nil => simp [addArtsAux]
  | cons c cs ih =>
    by_cases h : withSlack.contains c.index = true
    · simp only [addArtsAux, h, if_pos]
      exact List.Forall₂.cons (Or.inr ⟨h, rfl⟩) (ih v obj)
    · simp only [addArtsAux, h, if_neg, if_false]
      refine List.Forall₂.cons (Or.inl ⟨h, v, le_refl v, List.mem_cons_self _ _, rfl⟩) ?_
      refine (ih (v + 1) (addCoeff obj v 1)).imp (fun a b hab => ?_)
      rcases hab with ⟨ha, w, hw, hmem, hb⟩ | ⟨ha, hb⟩
      · exact Or.inl ⟨ha, w, le_trans (Nat.le_succ v) hw, List.mem_cons_of_mem _ hmem, hb⟩
      · exact Or.inr ⟨ha, hb⟩

/-- The artificial pass adds each artificial variable to the objective
expression, in iteration order. -/
theorem addArtsAux_obj (withSlack : List ℕ) (v : ℕ) (cs : List Constraint) (obj : Expression) :
    (addArtsAux withSlack v cs obj).2.2.2 =
      (addArtsAux withSlack v cs obj).2.1.foldl (fun e p => addCoeff e p.1 1) obj := by
  induction cs generalizing v obj with
  | nil => simp [addArtsAux]
  | cons c cs ih =>
    by_cases h : withSlack.contains c.index = true
    · simp only [addArtsAux, h, if_pos]
      exact ih v obj
    · simp only [addArtsAux, h, if_neg, if_false, List.foldl_cons]
      exact ih (v + 1) (addCoeff obj v 1)

/-- The artificial map records exactly the constraints without a slack. -/
theorem addArtsAux_idx (withSlack : List ℕ) (v : ℕ) (cs : List Constraint) (obj : Expression) :
    (addArtsAux withSlack v cs obj).2.1.map Prod.snd
      = (cs.filter (fun c => !withSlack.contains c.index)).map Constraint.index := by
  induction cs generalizing v obj with
  | nil => simp [addArtsAux]
  | cons c cs ih =>
    by_cases h : c.index ∈ withSlack
    · simp [addArtsAux, h, List.filter_cons, ih v obj]
    · simp [addArtsAux, h, List.filter_cons, ih (v + 1) (addCoeff obj v 1)]

/-- The presolve model's constraints, unfolded to the artificial pass. -/
theorem presolveModel_constraints (m : Model) :
    (presolveModel m).constraints =
      (addArtsAux (slackConstraintIdxs m) (augModel m).varCount (augModel m).constraints
        (augModel m).objective.expr).1 := by
  simp [presolveModel, createPresolveModel, addArtificialVariables]

/-- The artificial map, unfolded to the artificial pass. -/
theorem presolveArts_eq (m : Model) :
    presolveArts m =
      (addArtsAux (slackConstraintIdxs m) (augModel m).varCount (augModel m).constraints
        (augModel m).objective.expr).2.1 := by
  simp [presolveArts, createPresolveModel, addArtificialVariables]

/-- The presolve model's objective expression, unfolded. -/
theorem presolveModel_objExpr (m : Model) :
    (presolveModel m).objective.expr =
      (addArtsAux (slackConstraintIdxs m) (augModel m).varCount (augModel m).constraints
        (augModel m).objective.expr).2.2.2 := by
  simp [presolveModel, createPresolveModel, addArtificialVariables]

/-- C4, counterexample: for the model whose only constraint is `x1 ≥ 5`, the
constraint owns an auxiliary (surplus) variable, yet it still receives an
artificial variable — the source only checks for slacks.  This refutes the
claim that artificial variables go to exactly the constraints lacking an
auxiliary variable. -/
theorem claim4_counterexample :
    ¬ (∀ c ∈ (augModel mGE).constraints,
        ((∃ p ∈ presolveArts mGE, p.2 = c.index) ↔
          (¬ ∃ p ∈ augSlacks mGE, p.2 = c.index) ∧
          (¬ ∃ p ∈ augSurpluses mGE, p.2 = c.index))) := by
  decide

/-- C4 amended: when the presolve model is created, an artificial variable
with coefficient `+1` is added to exactly those constraints lacking a
**slack** variable (a surplus-owning `≥` constraint receives one as well),
and each artificial variable is also added to the real objective's
expression. -/
theorem claim4_amended (m : Model) :
    (presolveArts m).map Prod.snd =
      ((augModel m).constraints.filter
        (fun c => !(slackConstraintIdxs m).contains c.index)).map Constraint.index ∧
    List.Forall₂ (artsRel (presolveArts m) (slackConstraintIdxs m) (augModel m).varCount)
      (augModel m).constraints (presolveModel m).constraints ∧
    (presolveModel m).objective.expr =
      (presolveArts m).foldl (fun e p => addCoeff e p.1 1) (augModel m).objective.expr := by
  refine ⟨?_, ?_, ?_⟩
  · rw [presolveArts_eq]
    exact addArtsAux_idx _ _ _ _
  · rw [presolveModel_constraints, presolveArts_eq]
    exact addArtsAux_spec _ _ _ _
  · rw [presolveModel_objExpr, presolveArts_eq]
    exact addArtsAux_obj _ _ _ _

/-! ## Shared observers for the orchestration claims -/

/-- The branch condition of `solve`: fewer slacks than constraints. -/
def presolveTriggeredB (m : Model) : Bool :=
  decide ((augSlacks m).length < (augModel m).constraints.length)

/-- The Phase-I final tableau: the presolve initial tableau after the
optimize loop (`none` when the fuel runs out). -/
def phase1FinalTableau (fuel : ℕ) (m : Model) : Option Tableau :=
  (optimize fuel (presolveInitialTableau (presolveModel m) (presolveArts m))).map Prod.snd

/-- Whether `_presolve` reports failure (the infeasible signal). -/
def presolveFailed (fuel : ℕ) (m : Model) : Bool :=
  match presolve fuel (augModel m) (slackConstraintIdxs m) with
  | some (_, false) => true
  | _ => false

/-- Whether the Phase-I optimize loop halts with the unbounded signal. -/
def phase1Unbounded (fuel : ℕ) (m : Model) : Bool :=
  match optimize fuel (presolveInitialTableau (presolveModel m) (presolveArts m)) with
  | some (false, _) => true
  | _ => false

/-- The initial tableau carried by an optional solution. -/
def solInitialTableau (o : Option Solution) : Option Tableau :=
  o.map (fun s => s.initialTableau)

/-- The final tableau carried by an optional solution. -/
def solFinalTableau (o : Option Solution) : Option Tableau :=
  o.map (fun s => s.finalTableau)

/-! ## C6 -/

/-- C6, counterexample: for the infeasible model `x1 ≤ 0`, `x1 ≥ 1e-10`,
`solve` reports infeasible although no artificial variable's final value
exceeds the numeric tolerance `eps = 1e-9` (the surviving artificial sits at
`1e-10`): the source compares the artificial values against `0`, not against
the tolerance, so "infeasible iff some artificial exceeds the tolerance" is
refuted in the only-if direction. -/
theorem claim6_counterexample :
    statusOf (solve 30 mTiny) = some SolutionStatus.infeasible ∧
    (∀ tf, phase1FinalTableau 30 mTiny = some tf →
        (presolveArts mTiny).all
          (fun p => decide ((extractAssignment tf).getD p.1 0 ≤ eps)) = true) := by
  exact ⟨by decide, by decide⟩

/-- C6 amended: `solve` reports status infeasible exactly when the presolve
branch was taken and `_presolve` failed, and `_presolve` fails exactly when
the Phase-I loop halted and some artificial variable's value in the final
assignment is **strictly positive** (the comparison is against `0`, not
against the numeric tolerance); infeasibility is returned as a Solution
status value, never thrown. -/
theorem claim6_amended (fuel : ℕ) (m : Model) :
    (statusOf (solve fuel m) = some SolutionStatus.infeasible ↔
      (presolveTriggeredB m = true ∧ presolveFailed fuel m = true)) ∧
    (presolveFailed fuel m = true ↔
      ∃ tf, phase1FinalTableau fuel m = some tf ∧
        artificialVariablesArePositive tf (presolveArts m) = true) := by
  constructor
  · by_cases hb : (augSlacks m).length < (augModel m).constraints.length
    · rcases hp : presolve fuel (augModel m) (slackConstraintIdxs m) with _ | ⟨t, b⟩
      · simp [solve, statusOf, hb, hp, presolveFailed, presolveTriggeredB]
      · cases b
        · simp [solve, statusOf, hb, hp, presolveFailed, presolveTriggeredB,
                Solution.infeasible]
        · rcases ho : optimize fuel t with _ | ⟨bb, tf⟩
          · simp [solve, solveAfterPresolve, statusOf, hb, hp, ho, presolveFailed,
                  presolveTriggeredB]
          · cases bb <;>
              simp [solve, solveAfterPresolve, statusOf, hb, hp, ho, presolveFailed,
                    presolveTriggeredB, Solution.unbounded, Solution.withAssignment]
    · rcases ho : optimize fuel (basicInitialTableau (augModel m)) with _ | ⟨bb, tf⟩
      · simp [solve, solveAfterPresolve, statusOf, hb, ho, presolveTriggeredB]
      · cases bb <;>
          simp [solve, solveAfterPresolve, statusOf, hb, ho, presolveTriggeredB,
                Solution.unbounded, Solution.withAssignment]
  · rcases ho : optimize fuel
        (presolveInitialTableau (presolveModel m) (presolveArts m)) with _ | ⟨bb, tf⟩
    · simp only [presolveFailed, presolve, phase1FinalTableau, presolveModel, presolveArts,
        createPresolveModel] at ho ⊢
      rw [ho]
      simp
    · by_cases ha : artificialVariablesArePositive tf (presolveArts m) = true
      · simp only [presolveFailed, presolve, phase1FinalTableau, presolveModel, presolveArts,
          createPresolveModel] at ho ha ⊢
        rw [ho]
        simp [ha]
      · simp only [presolveFailed, presolve, phase1FinalTableau, presolveModel, presolveArts,
          createPresolveModel] at ho ha ⊢
        rw [ho]
        simp [ha]

/-! ## C7 -/

/-- Following the claim's words: a basic unit column — all entries zero
except a single `1` (exact comparison, over the constraint rows). -/
def isUnitColumn (col : List ℚ) : Bool :=
  col.countP (fun x => decide (x = 1)) == 1 && col.all (fun x => decide (x = 1) || decide (x = 0))

/-- Following the claim's words: one elimination step of the restoration —
for a basic unit column, subtract the objective-row entry at that column
times the column's basic row. -/
def restoreClaimStep (body : List (List ℚ)) (r0 : List ℚ) (i : ℕ) : List ℚ :=
  let col := columnAt body i
  if isUnitColumn col = true then
    rowSub r0 (scaleRow (r0.getD i 0) (body.getD (col.findIdx (fun x => decide (x = 1))) []))
  else r0

/-- Following the claim's words: the restoration of the Phase-II tableau —
delete the artificial columns, overwrite the objective row with the negated
true objective coefficients, and eliminate over every basic unit column. -/
def restoreClaimSpec (t : Tableau) (m : Model) (artCols : List ℕ) : Tableau :=
  let body := (t.table.drop 1).map (deleteCols artCols)
  let r0 := coefficients (negExpr m.objective.expr) m.varCount ++ [0]
  ⟨(List.range (m.varCount + 1)).foldl (restoreClaimStep body) r0 :: body⟩

/-- The Phase-I final tableau of the single-constraint model `x1 = 5`. -/
def mEq1TF : Tableau :=
  match phase1FinalTableau 30 mEq1 with
  | some t => t
  | none => ⟨[]⟩

/-- C7, counterexample: for the model `x1 = 5` (maximize `x1`) the Phase-I
final tableau's `x1` column is a basic unit column after the artificial
column is deleted, yet the source's restoration skips it (the source tests
`(max, min) == (1, 0)`, and the single-row column has minimum `1`), so the
restored tableau differs from the claim-described one, whose objective row
would have been reduced on that column. -/
theorem claim7_counterexample :
    phase1FinalTableau 30 mEq1 = some mEq1TF ∧
    isUnitColumn (columnAt ((mEq1TF.table.drop 1).map
      (deleteCols ((presolveArts mEq1).map Prod.fst))) 0) = true ∧
    restoreInitialTableau mEq1TF (augModel mEq1) ((presolveArts mEq1).map Prod.fst) ≠
      restoreClaimSpec mEq1TF (augModel mEq1) ((presolveArts mEq1).map Prod.fst) := by
  exact ⟨by decide, by decide, by decide⟩

/-- Following the amended claim's words: the sequential elimination over the
column positions, subtracting on exactly those columns whose constraint-row
entries have maximum exactly `1` and minimum exactly `0`, using the row of
the column's first maximal entry. -/
def elimColumns (body : List (List ℚ)) : List ℕ → List ℚ → List ℚ
  | [], r0 => r0
  | i :: is, r0 =>
    elimColumns body is
      (if colMax (columnAt body i) = 1 ∧ colMin (columnAt body i) = 0 then
        rowSub r0 (scaleRow (r0.getD i 0) (body.getD (argMax (columnAt body i)) []))
      else r0)

/-- Following the amended claim's words: restoration with the max/min
column test. -/
def restoreSpecAmended (t : Tableau) (m : Model) (artCols : List ℕ) : Tableau :=
  let body := (t.table.drop 1).map (deleteCols artCols)
  ⟨elimColumns body (List.range (m.varCount + 1))
    (coefficients (negExpr m.objective.expr) m.varCount ++ [0]) :: body⟩

/-- The sequential elimination is the fold of the source's step. -/
theorem elimColumns_eq_foldl (body : List (List ℚ)) (is : List ℕ) (r0 : List ℚ) :
    elimColumns body is r0 = is.foldl (restoreElimStep body) r0 := by
  induction is generalizing r0 with
  | nil => rfl
  | cons i is ih => simp [elimColumns, List.foldl_cons, restoreElimStep, ih]

/-- C7 amended: the restored Phase-II tableau is obtained from the Phase-I
final tableau by deleting all artificial-variable columns, overwriting the
objective row with the negated coefficients of the true (augmented,
sign-adjusted) objective, and then subtracting, for every column position
(the right-hand-side column included) whose constraint-row entries have
maximum exactly `1` and minimum exactly `0`, the objective-row entry at that
position times the row of the column's first maximal entry — rather than for
every basic unit column. -/
theorem claim7_amended (t : Tableau) (m : Model) (artCols : List ℕ) :
    restoreInitialTableau t m artCols = restoreSpecAmended t m artCols := by
  simp only [restoreInitialTableau, restoreSpecAmended, elimColumns_eq_foldl]

/-! ## C8 -/

/-- C8, counterexample: for the model whose two constraints are
`1e-9 * x1 = 5`, the Phase-I optimize loop selects the entering column `x1`
(objective-row entry `-2e-9`) whose constraint entries are all `≤ eps`, so
the loop halts with the unbounded signal — yet `_presolve` discards that
boolean and `solve` reports infeasible, not unbounded. -/
theorem claim8_counterexample :
    phase1Unbounded 30 mTol = true ∧
    statusOf (solve 30 mTol) = some SolutionStatus.infeasible := by
  exact ⟨by decide, by decide⟩

/-- C8 amended: in Phase II — the optimize call of `solve`'s shared tail —
the unbounded halt is reported to the caller as a Solution with status
unbounded; in Phase I the loop's boolean is discarded by `_presolve`, so an
unbounded halt there flows into the infeasibility check instead. -/
theorem claim8_amended (fuel : ℕ) (m : Model) (t tf : Tableau)
    (h : optimize fuel t = some (false, tf)) :
    solveAfterPresolve fuel m t = some (Solution.unbounded m t tf) := by
  simp only [solveAfterPresolve, h]

/-- The Phase-II initial tableau produced by the presolve on `model05`. -/
def m05phase2 : Tableau :=
  match presolve 30 (augModel model05) (slackConstraintIdxs model05) with
  | some (t, true) => t
  | _ => ⟨[]⟩

/-- The tableau at which Phase II of `model05` halts unbounded. -/
def m05final : Tableau :=
  match optimize 30 m05phase2 with
  | some (_, t) => t
  | none => ⟨[]⟩

/-- C8 amended, witness at `model05` (the unbounded example): Phase II halts
with the unbounded signal and the solution is `unbounded`. -/
theorem claim8_witness :
    optimize 30 m05phase2 = some (false, m05final) ∧
    solveAfterPresolve 30 model05 m05phase2 =
      some (Solution.unbounded model05 m05phase2 m05final) :=
  ⟨by decide, claim8_amended 30 model05 m05phase2 m05final (by decide)⟩

/-! ## C9 -/

/-- C9, counterexample: for the infeasible model `x1 ≤ 4`, `x1 ≥ 10`
(where Phase I performs a pivot), the infeasible Solution carries the
Phase-I **final** tableau in both slots; the Phase-I initial tableau is not
retained.  This refutes the claim that an infeasible outcome carries the
Phase-I initial tableau and the Phase-I final tableau. -/
theorem claim9_counterexample :
    statusOf (solve 30 mInfeasEx) = some SolutionStatus.infeasible ∧
    solInitialTableau (solve 30 mInfeasEx) = solFinalTableau (solve 30 mInfeasEx) ∧
    solInitialTableau (solve 30 mInfeasEx) ≠
      some (presolveInitialTableau (presolveModel mInfeasEx) (presolveArts mInfeasEx)) := by
  exact ⟨by decide, by decide, by decide⟩

/-- C9 amended: on an optimal or unbounded outcome the Solution carries the
final phase's pre-optimization tableau as its initial tableau (unmutated by
the later pivots — the loop's result appears only in the final slot), and on
an infeasible outcome it carries the Phase-I final tableau in both slots. -/
theorem claim9_amended :
    (∀ (fuel : ℕ) (m : Model) (t : Tableau) (s : Solution),
        solveAfterPresolve fuel m t = some s →
        s.initialTableau = t ∧ ∃ b, optimize fuel t = some (b, s.finalTableau)) ∧
    (∀ (fuel : ℕ) (m : Model) (s : Solution),
        solve fuel m = some s → s.status = SolutionStatus.infeasible →
        s.initialTableau = s.finalTableau) := by
  constructor
  · intro fuel m t s h
    rcases ho : optimize fuel t with _ | ⟨b, tf⟩
    · simp [solveAfterPresolve, ho] at h
    · cases b <;>
        · simp only [solveAfterPresolve, ho, Option.some.injEq] at h
          subst h
          exact ⟨rfl, _, rfl⟩
  · intro fuel m s h hstatus
    by_cases hb : (augSlacks m).length < (augModel m).constraints.length
    · rcases hp : presolve fuel (augModel m) (slackConstraintIdxs m) with _ | ⟨t, b⟩
      · simp [solve, hb, hp] at h
      · cases b
        · simp only [solve, hb, if_pos, hp, Option.some.injEq] at h
          subst h
          rfl
        · simp only [solve, hb, if_pos, hp] at h
          rcases ho : optimize fuel t with _ | ⟨bb, tf⟩
          · simp [solveAfterPresolve, ho] at h
          · cases bb <;>
              · simp only [solveAfterPresolve, ho, Option.some.injEq] at h
                subst h
                simp [Solution.unbounded, Solution.withAssignment] at hstatus
    · simp only [solve, hb, if_neg, if_false] at h
      rcases ho : optimize fuel (basicInitialTableau (augModel m)) with _ | ⟨bb, tf⟩
      · simp [solveAfterPresolve, ho] at h
      · cases bb <;>
          · simp only [solveAfterPresolve, ho, Option.some.injEq] at h
            subst h
            simp [Solution.unbounded, Solution.withAssignment] at hstatus

/-- The solution that `solve` returns on the infeasible model `mInfeasEx`. -/
def c9sol : Solution :=
  match solve 30 mInfeasEx with
  | some s => s
  | none => Solution.infeasible mInfeasEx ⟨[]⟩ ⟨[]⟩

/-- The solution of Phase II on `model05`'s restored tableau. -/
def c9solU : Solution :=
  match solveAfterPresolve 30 model05 m05phase2 with
  | some s => s
  | none => Solution.infeasible model05 ⟨[]⟩ ⟨[]⟩

/-- C9 amended, witness: both parts applied at concrete inputs — the
unbounded Phase-II run of `model05` keeps its pre-optimization tableau, and
the infeasible run of `mInfeasEx` carries one tableau in both slots. -/
theorem claim9_witness :
    (solveAfterPresolve 30 model05 m05phase2 = some c9solU ∧
      c9solU.initialTableau = m05phase2 ∧
      (∃ b, optimize 30 m05phase2 = some (b, c9solU.finalTableau))) ∧
    (solve 30 mInfeasEx = some c9sol ∧ c9sol.status = SolutionStatus.infeasible ∧
      c9sol.initialTableau = c9sol.finalTableau) := by
  have h1 := claim9_amended.1 30 model05 m05phase2 c9solU (by decide)
  have h2 := claim9_amended.2 30 mInfeasEx c9sol (by decide) (by decide)
  exact ⟨⟨by decide, h1.1, h1.2⟩, ⟨by decide, by decide, h2⟩⟩

/-! ## C10 -/

/-- Length of a row after column deletion, in terms of how many of the
positions in range fall among the deleted columns. -/
theorem deleteColsAux_length (cols : List ℕ) (xs : List ℚ) : ∀ (i : ℕ),
    (deleteColsAux cols i xs).length
      = xs.length - (List.range' i xs.length).countP (fun j => decide (j ∈ cols)) := by
  induction xs with
  | nil => intro i; simp [deleteColsAux]
  | cons x xs ih =>
    intro i
    have hle := List.countP_le_length (fun j => decide (j ∈ cols))
      (l := List.range' (i + 1) xs.length)
    rw [List.length_range'] at hle
    simp only [List.length_cons]
    rw [List.range'_succ, List.countP_cons]
    by_cases h : i ∈ cols
    · rw [show deleteColsAux cols i (x :: xs) = deleteColsAux cols (i + 1) xs from by
        simp [deleteColsAux, h]]
      rw [ih (i + 1)]
      simp [h]
    · rw [show deleteColsAux cols i (x :: xs) = x :: deleteColsAux cols (i + 1) xs from by
        simp [deleteColsAux, h]]
      rw [List.length_cons, ih (i + 1)]
      simp [h]
      omega

/-- Deleting a duplicate-free, in-range set of columns shortens a row by
exactly the number of deleted columns. -/
theorem deleteCols_length (cols : List ℕ) (xs : List ℚ) (W : ℕ) (hx : xs.length = W)
    (hc : (List.range W).countP (fun j => decide (j ∈ cols)) = cols.length) :
    (deleteCols cols xs).length = W - cols.length := by
  unfold deleteCols
  rw [deleteColsAux_length, hx, ← List.range_eq_range', hc]

/-- C10: when after the Phase-I loop no artificial variable's extracted value
is strictly positive — in particular when an artificial variable is still
basic at value exactly `0` — `_presolve` reports success, and the restoration
unconditionally deletes every artificial-variable column: every constraint
row of the restored tableau is shorter by the full number of artificial
variables, including a row whose basic variable was a zero-valued
artificial. -/
theorem claim10_degenerate_success (fuel : ℕ) (m : Model) (b : Bool) (tf : Tableau) (W : ℕ)
    (hopt : optimize fuel (presolveInitialTableau (presolveModel m) (presolveArts m))
      = some (b, tf))
    (hart : artificialVariablesArePositive tf (presolveArts m) = false)
    (hW : ∀ row ∈ tf.table, row.length = W)
    (hcount : (List.range W).countP (fun j => decide (j ∈ (presolveArts m).map Prod.fst))
      = ((presolveArts m).map Prod.fst).length) :
    presolve fuel (augModel m) (slackConstraintIdxs m)
      = some (restoreInitialTableau tf (augModel m) ((presolveArts m).map Prod.fst), true) ∧
    ∀ row ∈ (restoreInitialTableau tf (augModel m)
        ((presolveArts m).map Prod.fst)).table.drop 1,
      row.length = W - ((presolveArts m).map Prod.fst).length := by
  constructor
  · simp only [presolve, presolveModel, presolveArts, createPresolveModel] at hopt hart ⊢
    simp [hopt, hart]
  · intro row hrow
    simp only [restoreInitialTableau, List.drop_succ_cons, List.drop_zero] at hrow
    obtain ⟨r, hr, rfl⟩ := List.mem_map.mp hrow
    exact deleteCols_length _ r W (hW r (List.mem_of_mem_drop hr)) hcount

/-- The Phase-I final tableau of the degenerate model `x1 ≤ 0`, `x1 = 0`. -/
def mDegenTF : Tableau :=
  match phase1FinalTableau 30 mDegen with
  | some t => t
  | none => ⟨[]⟩

/-- C10, witness at the degenerate model `x1 ≤ 0`, `x1 = 0`: Phase I halts
with the artificial variable still basic at value exactly `0`, `_presolve`
reports success, and every restored constraint row lost exactly the
artificial column. -/
theorem claim10_witness :
    (optimize 30 (presolveInitialTableau (presolveModel mDegen) (presolveArts mDegen))
        = some (true, mDegenTF) ∧
      artificialVariablesArePositive mDegenTF (presolveArts mDegen) = false ∧
      (∀ row ∈ mDegenTF.table, row.length = 4) ∧
      (List.range 4).countP (fun j => decide (j ∈ (presolveArts mDegen).map Prod.fst))
        = ((presolveArts mDegen).map Prod.fst).length ∧
      (∃ p ∈ presolveArts mDegen,
        basicRowOf mDegenTF p.1 ≠ none ∧ (extractAssignment mDegenTF).getD p.1 0 = 0)) ∧
    presolve 30 (augModel mDegen) (slackConstraintIdxs mDegen)
      = some (restoreInitialTableau mDegenTF (augModel mDegen)
          ((presolveArts mDegen).map Prod.fst), true) ∧
    ∀ row ∈ (restoreInitialTableau mDegenTF (augModel mDegen)
        ((presolveArts mDegen).map Prod.fst)).table.drop 1,
      row.length = 4 - ((presolveArts mDegen).map Prod.fst).length := by
  refine ⟨⟨by decide, by decide, by decide, by decide, by decide⟩, ?_⟩
  exact claim10_degenerate_success 30 mDegen true mDegenTF 4
    (by decide) (by decide) (by decide) (by decide)

/-! ## C5: list-level groundwork -/

/-- Length after `addAt`. -/
theorem addAt_length : ∀ (l : List ℚ) (i : ℕ) (q : ℚ),
    (addAt l i q).length = max l.length (i + 1)
  | [], 0, q => by simp [addAt]
  | [], i + 1, q => by simp [addAt, addAt_length [] i q]
  | x :: xs, 0, q => by simp [addAt]
  | x :: xs, i + 1, q => by simp [addAt, addAt_length xs i q]; omega

/-- Entry of `addAt`. -/
theorem getD_addAt : ∀ (l : List ℚ) (i j : ℕ) (q : ℚ),
    (addAt l i q).getD j 0 = l.getD j 0 + (if i = j then q else 0)
  | [], 0, 0, q => by simp [addAt]
  | [], 0, j + 1, q => by simp [addAt]
  | [], i + 1, 0, q => by simp [addAt]
  | [], i + 1, j + 1, q => by simpa [addAt] using getD_addAt [] i j q
  | x :: xs, 0, 0, q => by simp [addAt]
  | x :: xs, 0, j + 1, q => by simp [addAt]
  | x :: xs, i + 1, 0, q => by simp [addAt]
  | x :: xs, i + 1, j + 1, q => by simpa [addAt] using getD_addAt xs i j q

/-- Length of the dense coefficient vector. -/
theorem coefficients_length (e : Expression) (n : ℕ) : (coefficients e n).length = n := by
  simp [coefficients]

/-- Entry of the dense coefficient vector. -/
theorem coefficients_getD (e : Expression) (n j : ℕ) (h : j < n) :
    (coefficients e n).getD j 0 = e.coeffs.getD j 0 := by
  rw [List.getD_eq_getElem _ _ (by simpa [coefficients_length] using h)]
  simp [coefficients]

/-- Entry of a tableau row `coefficients ++ [bound]` in the variable part. -/
theorem row_getD_var (e : Expression) (n : ℕ) (b : ℚ) (j : ℕ) (h : j < n) :
    (coefficients e n ++ [b]).getD j 0 = e.coeffs.getD j 0 := by
  rw [List.getD_append _ _ _ _ (by simpa [coefficients_length] using h)]
  exact coefficients_getD e n j h

/-- Entry of a tableau row `coefficients ++ [bound]` in the RHS slot. -/
theorem row_getD_rhs (e : Expression) (n : ℕ) (b : ℚ) :
    (coefficients e n ++ [b]).getD n 0 = b := by
  rw [List.getD_append_right _ _ _ _ (by simp [coefficients_length])]
  simp [coefficients_length]

/-- `setAt` keeps the length. -/
theorem setAt_length : ∀ (l : List ℚ) (i : ℕ) (q : ℚ), (setAt l i q).length = l.length
  | [], _, _ => rfl
  | _ :: xs, 0, q => rfl
  | x :: xs, i + 1, q => by simp [setAt, setAt_length xs i q]

/-- `setAt` writes the value when in range. -/
theorem setAt_getD_self : ∀ (l : List ℚ) (i : ℕ) (q : ℚ), i < l.length →
    (setAt l i q).getD i 0 = q
  | _ :: xs, 0, q, _ => rfl
  | x :: xs, i + 1, q, h => by
    simpa [setAt] using setAt_getD_self xs i q (by simpa using h)

/-- `setAt` leaves other positions alone. -/
theorem setAt_getD_ne : ∀ (l : List ℚ) (i j : ℕ) (q : ℚ), i ≠ j →
    (setAt l i q).getD j 0 = l.getD j 0
  | [], _, _, _, _ => rfl
  | _ :: xs, 0, 0, q, h => absurd rfl h
  | _ :: xs, 0, j + 1, q, _ => rfl
  | x :: xs, i + 1, 0, q, _ => rfl
  | x :: xs, i + 1, j + 1, q, h => by
    simpa [setAt] using setAt_getD_ne xs i j q (fun hc => h (by omega))

/-- A fold of `setAt`s leaves an untouched position alone. -/
theorem foldl_setAt_getD_ne (L : List (ℕ × ℕ)) (z : List ℚ) (j : ℕ)
    (h : ∀ p ∈ L, p.1 ≠ j) :
    (L.foldl (fun r p => setAt r p.1 1) z).getD j 0 = z.getD j 0 := by
  induction L generalizing z with
  | nil => rfl
  | cons p L ih =>
    rw [List.foldl_cons, ih _ (fun q hq => h q (List.mem_cons_of_mem _ hq))]
    exact setAt_getD_ne z p.1 j 1 (h p (List.mem_cons_self _ _))

/-- A fold of `setAt 1`s preserves a position already holding `1`. -/
theorem foldl_setAt_preserve_one (L : List (ℕ × ℕ)) (z : List ℚ) (j : ℕ)
    (h : z.getD j 0 = 1) :
    (L.foldl (fun r p => setAt r p.1 1) z).getD j 0 = 1 := by
  induction L generalizing z with
  | nil => exact h
  | cons p L ih =>
    rw [List.foldl_cons]
    refine ih _ ?_
    by_cases hp : p.1 = j
    · subst hp
      have hlen : p.1 < z.length := by
        by_contra hc
        rw [List.getD_eq_default _ _ (le_of_not_lt hc)] at h
        exact one_ne_zero h.symm
      exact setAt_getD_self z p.1 1 hlen
    · rw [setAt_getD_ne z p.1 j 1 hp]
      exact h

/-- A fold of `setAt 1`s writes `1` at every touched in-range position. -/
theorem foldl_setAt_getD_mem (L : List (ℕ × ℕ)) (z : List ℚ) (p : ℕ × ℕ)
    (hp : p ∈ L) (hlen : p.1 < z.length) :
    (L.foldl (fun r p => setAt r p.1 1) z).getD p.1 0 = 1 := by
  induction L generalizing z with
  | nil => cases hp
  | cons q L ih =>
    rw [List.foldl_cons]
    rcases List.mem_cons.mp hp with h1 | h1
    · subst h1
      exact foldl_setAt_preserve_one L _ p.1 (setAt_getD_self z p.1 1 hlen)
    · exact ih _ h1 (by rw [setAt_length]; exact hlen)

/-- Entrywise value of a row subtraction. -/
theorem rowSub_getD : ∀ (a b : List ℚ) (j : ℕ), j < a.length → j < b.length →
    (rowSub a b).getD j 0 = a.getD j 0 - b.getD j 0
  | [], _, j, ha, _ => absurd ha (by simp)
  | _ :: _, [], j, _, hb => absurd hb (by simp)
  | x :: xs, y :: ys, 0, _, _ => by simp [rowSub]
  | x :: xs, y :: ys, j + 1, ha, hb => by
    simpa [rowSub] using rowSub_getD xs ys j (by simpa using ha) (by simpa using hb)

/-- Length of a row subtraction. -/
theorem rowSub_length (a b : List ℚ) : (rowSub a b).length = min a.length b.length := by
  simp [rowSub]

/-- A fold of row subtractions keeps the length. -/
theorem foldl_rowSub_length (L : List (ℕ × ℕ)) (g : ℕ × ℕ → List ℚ) (r : List ℚ) (W : ℕ)
    (hr : r.length = W) (hg : ∀ p ∈ L, (g p).length = W) :
    (L.foldl (fun acc p => rowSub acc (g p)) r).length = W := by
  induction L generalizing r with
  | nil => exact hr
  | cons p L ih =>
    rw [List.foldl_cons]
    refine ih _ ?_ (fun q hq => hg q (List.mem_cons_of_mem _ hq))
    rw [rowSub_length, hr, hg p (List.mem_cons_self _ _), min_self]

/-- Entrywise value of a fold of row subtractions. -/
theorem foldl_rowSub_getD (L : List (ℕ × ℕ)) (g : ℕ × ℕ → List ℚ) (r : List ℚ) (j W : ℕ)
    (hr : r.length = W) (hg : ∀ p ∈ L, (g p).length = W) (hj : j < W) :
    (L.foldl (fun acc p => rowSub acc (g p)) r).getD j 0
      = r.getD j 0 - (L.map (fun p => (g p).getD j 0)).sum := by
  induction L generalizing r with
  | nil => simp
  | cons p L ih =>
    rw [List.foldl_cons, List.map_cons, List.sum_cons]
    rw [ih (rowSub r (g p))
      (by rw [rowSub_length, hr, hg p (List.mem_cons_self _ _), min_self])
      (fun q hq => hg q (List.mem_cons_of_mem _ hq))]
    rw [rowSub_getD r (g p) j (by omega) (by rw [hg p (List.mem_cons_self _ _)]; omega)]
    ring

/-- A sum of exact indicators over a duplicate-free list containing the
distinguished element is `1`. -/
theorem sum_indicator {α : Type} [DecidableEq α] (L : List α) (p : α)
    (hnd : L.Nodup) (hp : p ∈ L) :
    (L.map (fun q => if q = p then (1 : ℚ) else 0)).sum = 1 := by
  induction L with
  | nil => cases hp
  | cons q L ih =>
    rw [List.map_cons, List.sum_cons]
    have hnd' := List.nodup_cons.mp hnd
    rcases List.mem_cons.mp hp with h1 | h1
    · rw [if_pos h1.symm]
      have hz : (L.map (fun r => if r = p then (1 : ℚ) else 0)).sum = 0 := by
        rw [List.sum_eq_zero]
        intro x hx
        obtain ⟨r, hr, rfl⟩ := List.mem_map.mp hx
        exact if_neg (fun (hrp : r = p) => hnd'.1 ((hrp.trans h1) ▸ hr))
      rw [hz]
      ring
    · have hqp : ¬(q = p) := fun hqp => hnd'.1 (hqp ▸ h1)
      rw [if_neg hqp, ih hnd'.2 h1]
      ring

/-! ## C5: pipeline facts -/

/-- The artificial pass only increases the variable counter. -/
theorem addArtsAux_le_varCount (withSlack : List ℕ) (v : ℕ) (cs : List Constraint)
    (obj : Expression) : v ≤ (addArtsAux withSlack v cs obj).2.2.1 := by
  induction cs generalizing v obj with
  | nil => simp [addArtsAux]
  | cons c cs ih =>
    by_cases h : withSlack.contains c.index = true
    · simp only [addArtsAux, h, if_pos]
      exact ih v obj
    · simp only [addArtsAux, h, if_neg, if_false]
      exact le_trans (Nat.le_succ v) (ih (v + 1) _)

/-- Every artificial variable index lies in the fresh range. -/
theorem addArtsAux_vars_range (withSlack : List ℕ) (v : ℕ) (cs : List Constraint)
    (obj : Expression) :
    ∀ p ∈ (addArtsAux withSlack v cs obj).2.1,
      v ≤ p.1 ∧ p.1 < (addArtsAux withSlack v cs obj).2.2.1 := by
  induction cs generalizing v obj with
  | nil => simp [addArtsAux]
  | cons c cs ih =>
    intro p hp
    by_cases h : withSlack.contains c.index = true
    · simp only [addArtsAux, h, if_pos] at hp ⊢
      exact ih v obj p hp
    · simp only [addArtsAux, h, if_neg, if_false] at hp ⊢
      rcases List.mem_cons.mp hp with h1 | h1
      · subst h1
        exact ⟨le_refl _,
          lt_of_lt_of_le (Nat.lt_succ_self v)
            (addArtsAux_le_varCount withSlack (v + 1) cs (addCoeff obj v 1))⟩
      · have := ih (v + 1) (addCoeff obj v 1) p h1
        exact ⟨le_trans (Nat.le_succ v) this.1, this.2⟩

/-- The artificial variable indices are strictly increasing. -/
theorem addArtsAux_pairwise (withSlack : List ℕ) (v : ℕ) (cs : List Constraint)
    (obj : Expression) :
    (addArtsAux withSlack v cs obj).2.1.Pairwise (fun p q => p.1 < q.1) := by
  induction cs generalizing v obj with
  | nil => simp [addArtsAux]
  | cons c cs ih =>
    by_cases h : withSlack.contains c.index = true
    · simp only [addArtsAux, h, if_pos]
      exact ih v obj
    · simp only [addArtsAux, h, if_neg, if_false]
      refine List.Pairwise.cons ?_ (ih (v + 1) (addCoeff obj v 1))
      intro q hq
      exact lt_of_lt_of_le (Nat.lt_succ_self v)
        (addArtsAux_vars_range withSlack (v + 1) cs (addCoeff obj v 1) q hq).1

/-- The slack pass bounds the rewritten expressions by the final counter. -/
theorem addSlacksAux_expr_len (v : ℕ) (cs : List Constraint)
    (h : ∀ c ∈ cs, c.expr.coeffs.length ≤ v) :
    ∀ c' ∈ (addSlacksAux v cs).1, c'.expr.coeffs.length ≤ (addSlacksAux v cs).2.2 := by
  induction cs generalizing v with
  | nil => simp [addSlacksAux]
  | cons c cs ih =>
    intro c' hc'
    by_cases hc : c.type = ConstraintType.LE
    · simp only [addSlacksAux, hc, if_pos] at hc' ⊢
      rcases List.mem_cons.mp hc' with h1 | h1
      · subst h1
        simp only [addCoeff, addAt_length]
        have h2 := h c (List.mem_cons_self _ _)
        have h3 := addSlacksAux_le_varCount (v + 1) cs
        omega
      · exact ih (v + 1)
          (fun a ha => le_trans (h a (List.mem_cons_of_mem _ ha)) (Nat.le_succ v)) c' h1
    · simp only [addSlacksAux, hc, if_neg, if_false] at hc' ⊢
      rcases List.mem_cons.mp hc' with h1 | h1
      · rw [h1]
        exact le_trans (h c (List.mem_cons_self _ _)) (addSlacksAux_le_varCount v cs)
      · exact ih v (fun a ha => h a (List.mem_cons_of_mem _ ha)) c' h1

/-- The surplus pass only increases the variable counter. -/
theorem addSurplusAux_le_varCount (v : ℕ) (cs : List Constraint) :
    v ≤ (addSurplusAux v cs).2.2 := by
  induction cs generalizing v with
  | nil => simp [addSurplusAux]
  | cons c cs ih =>
    by_cases h : c.type = ConstraintType.GE
    · simp only [addSurplusAux, h, if_pos]
      exact le_trans (Nat.le_succ v) (ih (v + 1))
    · simp only [addSurplusAux, h, if_neg, if_false]
      exact ih v

/-- The surplus pass bounds the rewritten expressions by the final counter. -/
theorem addSurplusAux_expr_len (v : ℕ) (cs : List Constraint)
    (h : ∀ c ∈ cs, c.expr.coeffs.length ≤ v) :
    ∀ c' ∈ (addSurplusAux v cs).1, c'.expr.coeffs.length ≤ (addSurplusAux v cs).2.2 := by
  induction cs generalizing v with
  | nil => simp [addSurplusAux]
  | cons c cs ih =>
    intro c' hc'
    by_cases hc : c.type = ConstraintType.GE
    · simp only [addSurplusAux, hc, if_pos] at hc' ⊢
      rcases List.mem_cons.mp hc' with h1 | h1
      · subst h1
        simp only [addCoeff, addAt_length]
        have h2 := h c (List.mem_cons_self _ _)
        have h3 := addSurplusAux_le_varCount (v + 1) cs
        omega
      · exact ih (v + 1)
          (fun a ha => le_trans (h a (List.mem_cons_of_mem _ ha)) (Nat.le_succ v)) c' h1
    · simp only [addSurplusAux, hc, if_neg, if_false] at hc' ⊢
      rcases List.mem_cons.mp hc' with h1 | h1
      · rw [h1]
        exact le_trans (h c (List.mem_cons_self _ _)) (addSurplusAux_le_varCount v cs)
      · exact ih v (fun a ha => h a (List.mem_cons_of_mem _ ha)) c' h1

/-- The slack pass keeps the constraint indices, in order. -/
theorem addSlacksAux_map_index (v : ℕ) (cs : List Constraint) :
    (addSlacksAux v cs).1.map Constraint.index = cs.map Constraint.index := by
  induction cs generalizing v with
  | nil => simp [addSlacksAux]
  | cons c cs ih =>
    by_cases h : c.type = ConstraintType.LE <;>
      simp [addSlacksAux, h, ih]

/-- The surplus pass keeps the constraint indices, in order. -/
theorem addSurplusAux_map_index (v : ℕ) (cs : List Constraint) :
    (addSurplusAux v cs).1.map Constraint.index = cs.map Constraint.index := by
  induction cs generalizing v with
  | nil => simp [addSurplusAux]
  | cons c cs ih =>
    by_cases h : c.type = ConstraintType.GE <;>
      simp [addSurplusAux, h, ih]

/-- The artificial pass keeps the constraint indices, in order. -/
theorem addArtsAux_map_index (withSlack : List ℕ) (v : ℕ) (cs : List Constraint)
    (obj : Expression) :
    (addArtsAux withSlack v cs obj).1.map Constraint.index = cs.map Constraint.index := by
  induction cs generalizing v obj with
  | nil => simp [addArtsAux]
  | cons c cs ih =>
    by_cases h : c.index ∈ withSlack <;>
      simp [addArtsAux, h, ih]

/-- Normalization keeps the constraint indices, in order. -/
theorem normalizeModel_map_index (m : Model) :
    (normalizeModel m).constraints.map Constraint.index
      = m.constraints.map Constraint.index := by
  by_cases h : m.objective.type = ObjectiveType.MIN <;>
  · simp [normalizeModel, changeConstraintsBoundsToNonnegative, changeObjectiveToMax, h,
      simplify, simplifyConstraint, List.map_map, Function.comp]
    intro a _
    by_cases hb : a.bound < a.expr.const <;> simp [hb, invertConstraint]

/-- Indexing lemma: a list whose enumeration from `k` matches the index
field maps to the range starting at `k`. -/
theorem map_index_eq_range' : ∀ (cs : List Constraint) (k : ℕ),
    (∀ p ∈ cs.enumFrom k, p.2.index = p.1) →
    cs.map Constraint.index = List.range' k cs.length
  | [], k, _ => by simp
  | c :: cs, k, h => by
    simp only [List.map_cons, List.length_cons, List.range'_succ]
    refine congrArg₂ (· :: ·) ?_ ?_
    · exact h (k, c) (by simp [List.enumFrom])
    · exact map_index_eq_range' cs (k + 1)
        (fun p hp => h p (by simp [List.enumFrom]; right; exact hp))

/-- A well-formed model's constraint indices are `0..k-1`. -/
theorem wf_map_index (m : Model) (h : wfModel m = true) :
    m.constraints.map Constraint.index = List.range m.constraints.length := by
  rw [List.range_eq_range']
  refine map_index_eq_range' m.constraints 0 ?_
  intro p hp
  simp only [wfModel, Bool.and_eq_true, List.all_eq_true] at h
  have := h.1 p (by simpa [List.enum] using hp)
  simpa using this.1

/-- Members mapping equally under an injective-on-the-list map are equal. -/
theorem nodup_map_mem_inj {α β : Type} {f : α → β} {L : List α}
    (h : (L.map f).Nodup) {p q : α} (hp : p ∈ L) (hq : q ∈ L) (hf : f p = f q) :
    p = q := by
  induction L with
  | nil => cases hp
  | cons r L ih =>
    rw [List.map_cons, List.nodup_cons] at h
    rcases List.mem_cons.mp hp with h1 | h1 <;> rcases List.mem_cons.mp hq with h2 | h2
    · exact h1.trans h2.symm
    · exfalso
      apply h.1
      rw [h1] at hf
      exact hf ▸ List.mem_map_of_mem f h2
    · exfalso
      apply h.1
      rw [h2] at hf
      exact hf ▸ List.mem_map_of_mem f h1
    · exact ih h.2 h1 h2

/-- The normalization keeps the number of constraints. -/
theorem normalizeModel_constraints_length (m : Model) :
    (normalizeModel m).constraints.length = m.constraints.length := by
  by_cases h : m.objective.type = ObjectiveType.MIN <;>
    simp [normalizeModel, changeConstraintsBoundsToNonnegative, changeObjectiveToMax, h,
      simplify]

/-- The normalization keeps the variable count. -/
theorem normalizeModel_varCount (m : Model) :
    (normalizeModel m).varCount = m.varCount := by
  by_cases h : m.objective.type = ObjectiveType.MIN <;>
    simp [normalizeModel, changeConstraintsBoundsToNonnegative, changeObjectiveToMax, h,
      simplify]

/-- In a well-formed model's augmentation, constraint indices are still the
positions. -/
theorem augModel_map_index (m : Model) (hwf : wfModel m = true) :
    (augModel m).constraints.map Constraint.index
      = List.range (augModel m).constraints.length := by
  rw [augModel_constraints_length, normalizeModel_constraints_length]
  rw [augModel_constraints, addSurplusAux_map_index, addSlacksAux_map_index,
    normalizeModel_map_index, wf_map_index m hwf]

/-- Position access to the augmented model's indices. -/
theorem augModel_index_pos (m : Model) (hwf : wfModel m = true) (i : ℕ)
    (hi : i < (augModel m).constraints.length) :
    ((augModel m).constraints.get ⟨i, hi⟩).index = i := by
  have h2 := augModel_map_index m hwf
  have h3 : ((augModel m).constraints.map Constraint.index).getD i 0
      = (List.range (augModel m).constraints.length).getD i 0 := by rw [h2]
  rw [List.getD_eq_getElem _ _ (by simpa using hi),
    List.getD_eq_getElem _ _ (by simpa using hi)] at h3
  rw [List.get_eq_getElem]
  simpa using h3

/-- The presolve model's variable count, unfolded. -/
theorem presolveModel_varCount (m : Model) :
    (presolveModel m).varCount =
      (addArtsAux (slackConstraintIdxs m) (augModel m).varCount (augModel m).constraints
        (augModel m).objective.expr).2.2.1 := by
  simp [presolveModel, createPresolveModel, addArtificialVariables]

/-- Artificial variable indices lie strictly between the augmented and the
presolve variable counts. -/
theorem presolveArts_range (m : Model) :
    ∀ p ∈ presolveArts m,
      (augModel m).varCount ≤ p.1 ∧ p.1 < (presolveModel m).varCount := by
  intro p hp
  rw [presolveArts_eq] at hp
  rw [presolveModel_varCount]
  exact addArtsAux_vars_range _ _ _ _ p hp

/-- The artificial variable indices are strictly increasing. -/
theorem presolveArts_fst_pairwise (m : Model) :
    (presolveArts m).Pairwise (fun p q => p.1 < q.1) := by
  rw [presolveArts_eq]
  exact addArtsAux_pairwise _ _ _ _

/-- The artificial variable indices are duplicate-free. -/
theorem presolveArts_fst_nodup (m : Model) :
    ((presolveArts m).map Prod.fst).Nodup := by
  rw [List.Nodup, List.pairwise_map]
  exact (presolveArts_fst_pairwise m).imp (fun h => Nat.ne_of_lt h)

/-- The artificial map itself is duplicate-free. -/
theorem presolveArts_nodup (m : Model) : (presolveArts m).Nodup :=
  (presolveArts_fst_nodup m).of_map _

/-- The artificial map records exactly the slack-less constraints' indices. -/
theorem presolveArts_snd (m : Model) :
    (presolveArts m).map Prod.snd =
      ((augModel m).constraints.filter
        (fun c => !(slackConstraintIdxs m).contains c.index)).map Constraint.index := by
  rw [presolveArts_eq]
  exact addArtsAux_idx _ _ _ _

/-- The recorded constraint indices are duplicate-free. -/
theorem presolveArts_snd_nodup (m : Model) (hwf : wfModel m = true) :
    ((presolveArts m).map Prod.snd).Nodup := by
  rw [presolveArts_snd]
  refine List.Nodup.sublist ((List.filter_sublist _).map Constraint.index) ?_
  rw [augModel_map_index m hwf]
  exact List.nodup_range _

/-- The recorded constraint indices are in range. -/
theorem presolveArts_snd_lt (m : Model) (hwf : wfModel m = true) :
    ∀ p ∈ presolveArts m, p.2 < (augModel m).constraints.length := by
  intro p hp
  have h1 : p.2 ∈ (presolveArts m).map Prod.snd := List.mem_map_of_mem _ hp
  rw [presolveArts_snd] at h1
  have h2 : p.2 ∈ (augModel m).constraints.map Constraint.index :=
    ((List.filter_sublist _).map Constraint.index).subset h1
  rw [augModel_map_index m hwf] at h2
  exact List.mem_range.mp h2

/-- No constraint recorded in the artificial map owns a slack. -/
theorem presolveArts_not_slack (m : Model) :
    ∀ p ∈ presolveArts m, ¬ ((slackConstraintIdxs m).contains p.2 = true) := by
  intro p hp
  have h1 : p.2 ∈ (presolveArts m).map Prod.snd := List.mem_map_of_mem _ hp
  rw [presolveArts_snd] at h1
  obtain ⟨c, hc, hidx⟩ := List.mem_map.mp h1
  have h2 := (List.mem_filter.mp hc).2
  rw [← hidx]
  simpa using h2

/-- Any member appears in the enumeration, at some position. -/
theorem mem_enumFrom_of_mem {α : Type} : ∀ (l : List α) (k : ℕ) {a : α}, a ∈ l →
    ∃ i, (i, a) ∈ l.enumFrom k
  | c :: l, k, a, h => by
    rcases List.mem_cons.mp h with h1 | h1
    · exact ⟨k, by simp [List.enumFrom, h1]⟩
    · obtain ⟨i, hi⟩ := mem_enumFrom_of_mem l (k + 1) h1
      exact ⟨i, by simp [List.enumFrom]; right; exact hi⟩

/-- Expression lengths in a well-formed model are bounded. -/
theorem wf_expr_len (m : Model) (hwf : wfModel m = true) :
    ∀ a ∈ m.constraints, a.expr.coeffs.length ≤ m.varCount := by
  intro a ha
  simp only [wfModel, Bool.and_eq_true, List.all_eq_true] at hwf
  obtain ⟨i, hi⟩ := mem_enumFrom_of_mem m.constraints 0 ha
  have h2 := hwf.1 (i, a) hi
  simp only [Bool.and_eq_true, decide_eq_true_eq] at h2
  exact h2.2

/-- Expression lengths in the normalized model are bounded by the original
variable count. -/
theorem normalize_expr_len (m : Model) (hwf : wfModel m = true) :
    ∀ c ∈ (normalizeModel m).constraints, c.expr.coeffs.length ≤ m.varCount := by
  have hm := wf_expr_len m hwf
  intro c hc
  by_cases h : m.objective.type = ObjectiveType.MIN <;>
  · simp only [normalizeModel, changeConstraintsBoundsToNonnegative, changeObjectiveToMax,
      simplify, h, if_true, if_false] at hc
    first
    | (obtain ⟨b, hb, rfl⟩ := List.mem_map.mp hc
       obtain ⟨a, ha, rfl⟩ := List.mem_map.mp hb
       by_cases hbound : a.bound < a.expr.const <;>
         simpa [hbound, invertConstraint, negExpr, simplifyConstraint] using hm a ha)

/-- The augmented model's variable count, unfolded to the two passes. -/
theorem augModel_varCount (m : Model) :
    (augModel m).varCount =
      (addSurplusAux (addSlacksAux (normalizeModel m).varCount (normalizeModel m).constraints).2.2
        (addSlacksAux (normalizeModel m).varCount (normalizeModel m).constraints).1).2.2 := by
  simp [augModel, augmentModel, addSlackVariables, addSurplusVariables]

/-- Expression lengths in the augmented model are bounded by its variable
count. -/
theorem augModel_expr_len (m : Model) (hwf : wfModel m = true) :
    ∀ c ∈ (augModel m).constraints, c.expr.coeffs.length ≤ (augModel m).varCount := by
  have h0 : ∀ c ∈ (normalizeModel m).constraints,
      c.expr.coeffs.length ≤ (normalizeModel m).varCount := by
    intro c hc
    rw [normalizeModel_varCount]
    exact normalize_expr_len m hwf c hc
  have h1 := addSlacksAux_expr_len (normalizeModel m).varCount (normalizeModel m).constraints h0
  have h2 := addSurplusAux_expr_len
    (addSlacksAux (normalizeModel m).varCount (normalizeModel m).constraints).2.2
    (addSlacksAux (normalizeModel m).varCount (normalizeModel m).constraints).1 h1
  intro c hc
  rw [augModel_constraints] at hc
  rw [augModel_varCount]
  exact h2 c hc

/-- The presolve model's constraint count equals the augmented one's. -/
theorem presolveModel_constraints_length (m : Model) :
    (presolveModel m).constraints.length = (augModel m).constraints.length := by
  have h := addArtsAux_map_index (slackConstraintIdxs m) (augModel m).varCount
    (augModel m).constraints (augModel m).objective.expr
  rw [← presolveModel_constraints] at h
  have h2 := congrArg List.length h
  simpa using h2

/-- Coefficient of an artificial variable in any presolve constraint: `1` in
the constraint that owns it, `0` everywhere else. -/
theorem presolveModel_coeff (m : Model) (hwf : wfModel m = true) :
    ∀ p ∈ presolveArts m, ∀ (i : ℕ) (hi : i < (presolveModel m).constraints.length),
      ((presolveModel m).constraints.get ⟨i, hi⟩).expr.coeffs.getD p.1 0
        = if (p.1, i) ∈ presolveArts m then 1 else 0 := by
  intro p hp i hi
  have hF : List.Forall₂
      (artsRel (presolveArts m) (slackConstraintIdxs m) (augModel m).varCount)
      (augModel m).constraints (presolveModel m).constraints := by
    rw [presolveModel_constraints, presolveArts_eq]
    exact addArtsAux_spec _ _ _ _
  have hlen := hF.length_eq
  have hi' : i < (augModel m).constraints.length := by omega
  have hrel := hF.get hi' hi
  have hidx := augModel_index_pos m hwf i hi'
  have hple := (presolveArts_range m p hp).1
  have haug_len := augModel_expr_len m hwf _ (List.get_mem (augModel m).constraints i hi')
  have haug0 : ((augModel m).constraints.get ⟨i, hi'⟩).expr.coeffs.getD p.1 0 = 0 :=
    List.getD_eq_default _ _ (le_trans haug_len hple)
  rcases hrel with ⟨hns, w, hw, hwmem, hc'⟩ | ⟨hs, hc'⟩
  · rw [hc']
    simp only [addCoeff]
    rw [getD_addAt, haug0, zero_add]
    rw [hidx] at hwmem
    by_cases hwp : w = p.1
    · rw [if_pos hwp, if_pos (by rw [← hwp]; exact hwmem)]
    · have hnm : (p.1, i) ∉ presolveArts m := by
        intro hmem
        have heq := nodup_map_mem_inj (presolveArts_snd_nodup m hwf) hwmem hmem
          (rfl : ((w, i) : ℕ × ℕ).2 = ((p.1, i) : ℕ × ℕ).2)
        exact hwp (Prod.ext_iff.mp heq).1
      rw [if_neg hwp, if_neg hnm]
  · rw [hc', haug0]
    have hnm : (p.1, i) ∉ presolveArts m := by
      intro hmem
      have hns2 := presolveArts_not_slack m (p.1, i) hmem
      rw [hidx] at hs
      exact hns2 hs
    rw [if_neg hnm]

/-- A fold of `setAt`s keeps the length. -/
theorem foldl_setAt_length (L : List (ℕ × ℕ)) (z : List ℚ) :
    (L.foldl (fun r p => setAt r p.1 1) z).length = z.length := by
  induction L generalizing z with
  | nil => rfl
  | cons p L ih => rw [List.foldl_cons, ih, setAt_length]

/-- Entries of a zero row. -/
theorem getD_replicate_zero : ∀ (n j : ℕ), (List.replicate n (0 : ℚ)).getD j 0 = 0
  | 0, _ => rfl
  | n + 1, 0 => rfl
  | n + 1, j + 1 => by simp [List.replicate, getD_replicate_zero n j]

/-- The constraint rows of the standard tableau. -/
theorem basicInitialTableau_row (M : Model) (i : ℕ) (hi : i < M.constraints.length) :
    (basicInitialTableau M).table.getD (i + 1) []
      = coefficients (M.constraints.get ⟨i, hi⟩).expr M.varCount
        ++ [(M.constraints.get ⟨i, hi⟩).bound] := by
  simp only [basicInitialTableau, List.getD_cons_succ]
  rw [List.getD_eq_getElem _ _ (by simpa using hi)]
  simp

/-- The constraint rows of the standard tableau have full width. -/
theorem basicInitialTableau_row_length (M : Model) (i : ℕ) (hi : i < M.constraints.length) :
    ((basicInitialTableau M).table.getD (i + 1) []).length = M.varCount + 1 := by
  rw [basicInitialTableau_row M i hi]
  simp [coefficients_length]

/-- C5: for every presolve model arising from a well-formed model, the
Phase-I initial tableau's objective row has `0` in every artificial-variable
column, and in every other column (the right-hand-side slot included) it
holds the negated sum of the corresponding entries of the artificial
constraints' rows — it expresses the negative sum of the artificial
variables in terms of the non-artificial columns; the constraint rows are
those of the standard tableau. -/
theorem claim5_presolve_tableau (m : Model) (hwf : wfModel m = true) :
    (∀ p ∈ presolveArts m,
      (objRow (presolveInitialTableau (presolveModel m) (presolveArts m))).getD p.1 0 = 0) ∧
    (∀ j, j < (presolveModel m).varCount + 1 → (∀ p ∈ presolveArts m, p.1 ≠ j) →
      (objRow (presolveInitialTableau (presolveModel m) (presolveArts m))).getD j 0
        = -((presolveArts m).map (fun p =>
            ((basicInitialTableau (presolveModel m)).table.getD (p.2 + 1) []).getD j 0)).sum) ∧
    bodyRows (presolveInitialTableau (presolveModel m) (presolveArts m))
      = bodyRows (basicInitialTableau (presolveModel m)) := by
  have hglen : ∀ p ∈ presolveArts m,
      ((basicInitialTableau (presolveModel m)).table.getD (p.2 + 1) []).length
        = (presolveModel m).varCount + 1 := by
    intro p hp
    have h2 : p.2 < (presolveModel m).constraints.length := by
      rw [presolveModel_constraints_length]
      exact presolveArts_snd_lt m hwf p hp
    exact basicInitialTableau_row_length (presolveModel m) p.2 h2
  have hobj : objRow (presolveInitialTableau (presolveModel m) (presolveArts m))
      = (presolveArts m).foldl
          (fun r p => rowSub r ((basicInitialTableau (presolveModel m)).table.getD (p.2 + 1) []))
          ((presolveArts m).foldl (fun r p => setAt r p.1 1)
            (List.replicate ((presolveModel m).varCount + 1) 0)) := by
    simp [presolveInitialTableau, objRow]
  have hr1len : ((presolveArts m).foldl (fun r p => setAt r p.1 1)
      (List.replicate ((presolveModel m).varCount + 1) 0)).length
        = (presolveModel m).varCount + 1 := by
    rw [foldl_setAt_length]
    simp
  refine ⟨?_, ?_, ?_⟩
  · intro p hp
    have hpW : p.1 < (presolveModel m).varCount + 1 :=
      Nat.lt_succ_of_lt (presolveArts_range m p hp).2
    rw [hobj, foldl_rowSub_getD (presolveArts m) _ _ p.1 ((presolveModel m).varCount + 1)
      hr1len hglen hpW]
    rw [foldl_setAt_getD_mem (presolveArts m) _ p hp (by simp; omega)]
    have hsum : ((presolveArts m).map (fun q =>
        ((basicInitialTableau (presolveModel m)).table.getD (q.2 + 1) []).getD p.1 0)).sum
          = 1 := by
      have hcongr : ∀ q ∈ presolveArts m,
          ((basicInitialTableau (presolveModel m)).table.getD (q.2 + 1) []).getD p.1 0
            = if q = p then (1 : ℚ) else 0 := by
        intro q hq
        have hq2 : q.2 < (presolveModel m).constraints.length := by
          rw [presolveModel_constraints_length]
          exact presolveArts_snd_lt m hwf q hq
        rw [basicInitialTableau_row (presolveModel m) q.2 hq2]
        rw [row_getD_var _ _ _ _ (presolveArts_range m p hp).2]
        rw [presolveModel_coeff m hwf p hp q.2 hq2]
        by_cases hqp : q = p
        · rw [if_pos hqp, if_pos (by rw [hqp]; simpa using hp)]
        · have hnm : (p.1, q.2) ∉ presolveArts m := by
            intro hmem
            have h1 := nodup_map_mem_inj (presolveArts_fst_nodup m) hmem hp
              (rfl : ((p.1, q.2) : ℕ × ℕ).1 = p.1)
            have h2 : q.2 = p.2 := (Prod.ext_iff.mp h1).2
            have h3 := nodup_map_mem_inj (presolveArts_snd_nodup m hwf) hq hp h2
            exact hqp h3
          rw [if_neg hqp, if_neg hnm]
      rw [List.map_congr_left hcongr]
      exact sum_indicator (presolveArts m) p (presolveArts_nodup m) hp
    rw [hsum]
    ring
  · intro j hjW hne
    rw [hobj, foldl_rowSub_getD (presolveArts m) _ _ j ((presolveModel m).varCount + 1)
      hr1len hglen hjW]
    rw [foldl_setAt_getD_ne (presolveArts m) _ j hne, getD_replicate_zero]
    ring
  · simp [presolveInitialTableau, bodyRows, basicInitialTableau]

/-- C5, witness at `model04` (which has an equality constraint, so its
presolve model has one artificial variable). -/
theorem claim5_witness :
    wfModel model04 = true ∧
    ((∀ p ∈ presolveArts model04,
      (objRow (presolveInitialTableau (presolveModel model04)
        (presolveArts model04))).getD p.1 0 = 0) ∧
    (∀ j, j < (presolveModel model04).varCount + 1 →
        (∀ p ∈ presolveArts model04, p.1 ≠ j) →
      (objRow (presolveInitialTableau (presolveModel model04)
        (presolveArts model04))).getD j 0
        = -((presolveArts model04).map (fun p =>
            ((basicInitialTableau (presolveModel model04)).table.getD (p.2 + 1) []).getD
              j 0)).sum) ∧
    bodyRows (presolveInitialTableau (presolveModel model04) (presolveArts model04))
      = bodyRows (basicInitialTableau (presolveModel model04))) :=
  ⟨by decide, claim5_presolve_tableau model04 (by decide)⟩
